import Mathlib

/-!
# oro-view: the graph core (graph.cpp, node.cpp)

A shallow embedding of the force-directed ontology graph of oro-view.

Conventions of the embedding
* A `Node*` or `Node&` that points into `Graph::nodes` (a `std::map`, whose
  elements never move) is the key of that element.  `NULL` is `none`.
* `std::map::insert` keeps the first value stored under a key.
* `std::set<Node*>` iterates in address order, which the program does not
  control: the selection set is a duplicate-free list, and the theorems on the
  distance pass hold for every order of it.
* `float` quantities are exact rationals.  The square root of `project` is an
  argument of the embedding; the theorems on `project` are over the reals with
  the real square root.
* `boost::hash_value`, the constants of `macros.h` and
  `Node::getConnectedNodes` are not part of the two source files; they are
  fields of the environment `Env`.  What `Node::step` needs from elsewhere
  (`MIN_KINETIC_ENERGY`, `NodeRelation::getEdge`) is in `Physics`.
-/

namespace OroView

/-- Keys of `NodeMap` and `AliasMap`: the value of `hash_value(id)`. -/
abbrev Key := Int

/-- The two-dimensional vector `vec2<T>` over a number type `K`. -/
structure vec2 (K : Type) where
  x : K
  y : K
deriving DecidableEq

/-- The two-dimensional vector `vec2f`, over exact rationals. -/
abbrev vec2f := vec2 ℚ

/-- Modelled from the spec: the enumeration `relation_type` of `node_relation.h`
is not in the sources; `UNDEFINED` is the placeholder kind, every other kind is
a tag. -/
inductive relation_type where
  | UNDEFINED : relation_type
  | KIND (tag : Nat) : relation_type
deriving DecidableEq

/-- Modelled from the spec: the enumeration `node_type` is not in the sources;
a node kind is a tag. -/
abbrev node_type := Nat

/-- Modelled from the spec: `NodeRelation(from, to, type, label)`, a directed,
typed link from one node to another (`node_relation.h` is not in the
sources). -/
structure NodeRelation where
  from_ : Key
  to_ : Key
  type : relation_type
  label : String
deriving DecidableEq

/-- The members of `Node` that `node.cpp` and `graph.cpp` read or write. -/
structure Node where
  id : String
  label : String
  type : node_type
  pos : vec2f
  speed : vec2f
  mass : ℚ
  damping : ℚ
  charge : ℚ
  kinetic_energy : ℚ
  relations : List NodeRelation
  selected : Bool
  distance_to_selected : Int
  distance_to_selected_updated : Bool
  stepDone : Bool
  renderingDone : Bool
deriving DecidableEq

/-- Modelled from the spec: the physical spring between two node ids
(`edge.h` is not in the sources): the endpoint ids read by `getId1` and
`getId2`, the label, and the three physical members `graph.cpp` reads. -/
structure Edge where
  id1 : String
  id2 : String
  label : String
  length : ℚ
  nominal_length : ℚ
  spring_constant : ℚ
deriving DecidableEq

/-- Type `Graph::NodeMap`, a `std::map` from key to `Node`. -/
abbrev NodeMap := List (Key × Node)

/-- Type `Graph::AliasMap`, a `std::map` from key to `Node*`. -/
abbrev AliasMap := List (Key × Key)

/-- The members of `Graph`. -/
structure Graph where
  nodes : NodeMap
  aliases : AliasMap
  edges : List Edge
  selectedNodes : List Key
deriving DecidableEq

/-- What the constructor of `Node` leaves to chance: the random position, and
the members it does not initialise. -/
structure NodeInit where
  pos : vec2f
  kinetic_energy : ℚ
  distance_to_selected : Int
  distance_to_selected_updated : Bool

/-- What the two source files take from elsewhere. -/
structure Env where
  /-- Function `boost::hash_value` on strings, narrowed to the key type. -/
  hash_value : String → Key
  /-- Constant `INITIAL_MASS` of `macros.h`. -/
  INITIAL_MASS : ℚ
  /-- Constant `INITIAL_DAMPING` of `macros.h`. -/
  INITIAL_DAMPING : ℚ
  /-- Constant `INITIAL_CHARGE` of `macros.h`. -/
  INITIAL_CHARGE : ℚ
  /-- Modelled from the spec: the default spring constant of a new `Edge`. -/
  edge_spring_constant : ℚ
  /-- Modelled from the spec: the default nominal length of a new `Edge`. -/
  edge_nominal_length : ℚ
  /-- Modelled from the spec: the length of a new `Edge` before its first step. -/
  edge_length : ℚ
  /-- Function `Node::getConnectedNodes` (not in the sources), called on the node
  stored under a key; `ConnOK` states what the spec says of it. -/
  getConnectedNodes : NodeMap → Key → List Key

/-! ## `std::map` -/

namespace StdMap

/-- Function `std::map::find`: the value stored under `k`, if any. -/
def find {α : Type} : List (Key × α) → Key → Option α
  | [], _ => none
  | (k', v) :: t, k => if k' = k then some v else find t k

/-- Insertion of a new pair at its place in ascending key order. -/
def place {α : Type} : List (Key × α) → Key → α → List (Key × α)
  | [], k, v => [(k, v)]
  | (k', v') :: t, k, v =>
      if k < k' then (k, v) :: (k', v') :: t else (k', v') :: place t k v

/-- Function `std::map::insert`: the map afterwards, and whether the pair went in.  A
key that is already present keeps its value. -/
def insert {α : Type} (m : List (Key × α)) (k : Key) (v : α) : List (Key × α) × Bool :=
  match find m k with
  | some _ => (m, false)
  | none => (place m k v, true)

/-- Assignment through a pointer to the value stored under `k`. -/
def modify {α : Type} : List (Key × α) → Key → (α → α) → List (Key × α)
  | [], _, _ => []
  | (k', v) :: t, k, f =>
      if k' = k then (k', f v) :: t else (k', v) :: modify t k f

/-- The keys, in iteration order. -/
def keys {α : Type} (m : List (Key × α)) : List Key := m.map Prod.fst

end StdMap

/-! ## `Node` -/

/-- The constructor `Node::Node` of `node.cpp`: zero speed, initial mass, damping
and charge, `resetRenderers()`, not selected.  The label and the type that
`addNode` hands over are kept as members. -/
def Node.create (env : Env) (id label : String) (type : node_type) (init : NodeInit) : Node :=
  { id := id
    label := label
    type := type
    pos := init.pos
    speed := ⟨0, 0⟩
    mass := env.INITIAL_MASS
    damping := env.INITIAL_DAMPING
    charge := env.INITIAL_CHARGE
    kinetic_energy := init.kinetic_energy
    relations := []
    selected := false
    distance_to_selected := init.distance_to_selected
    distance_to_selected_updated := init.distance_to_selected_updated
    stepDone := false
    renderingDone := false }

/-- Function `Node::getID`. -/
def Node.getID (n : Node) : String := n.id

/-- Function `Node::getRelationTo`: the relations of the node whose target is `to`. -/
def Node.getRelationTo (n : Node) (to_ : Key) : List NodeRelation :=
  n.relations.filter (fun rel => rel.to_ = to_)

/-- Function `Node::setSelected`: nothing when the flag already has that value;
otherwise the flag is set and the charge doubled or halved. -/
def Node.setSelected (n : Node) (select : Bool) : Node :=
  if (select && n.selected) || (!select && !n.selected) then n
  else
    let n1 := { n with selected := select }
    if select then { n1 with charge := n1.charge * 2 }
    else { n1 with charge := n1.charge / 2 }

/-! ## `Graph` -/

/-- The graph right after `Graph::Graph()`. -/
def Graph.empty : Graph := ⟨[], [], [], []⟩

/-- Function `Graph::getNode`: the node the alias map gives for `hash_value(id)`, or the
exception `Node <id> not found`. -/
def Graph.getNode (env : Env) (g : Graph) (id : String) : Except String Key :=
  match StdMap.find g.aliases (env.hash_value id) with
  | none => Except.error ("Node " ++ id ++ " not found")
  | some p => Except.ok p

/-- Function `Graph::getNodeByTagID`: the address of the node stored under `tagid`, or
`NULL`. -/
def Graph.getNodeByTagID (g : Graph) (tagid : Key) : Option Key :=
  match StdMap.find g.nodes tagid with
  | none => none
  | some _ => some tagid

/-- Function `Graph::getEdgesBetween`: the edges (with their position in the vector,
which stands for the pointer) whose endpoint ids are the ids of the two
nodes, in either order. -/
def Graph.getEdgesBetween (g : Graph) (node1 node2 : Node) : List (Nat × Edge) :=
  g.edges.enum.filter (fun e =>
    (e.2.id1 = node1.getID && e.2.id2 = node2.getID) ||
    (e.2.id1 = node2.getID && e.2.id2 = node1.getID))

/-- Function `Graph::getEdgesFor`: the edges that touch the id of the node. -/
def Graph.getEdgesFor (g : Graph) (node : Node) : List (Nat × Edge) :=
  g.edges.enum.filter (fun e => e.2.id1 = node.getID || e.2.id2 = node.getID)

/-- Modelled from the spec: the constructor `Edge(rel, label)` (`edge.cpp` is
not in the sources): the spring between the ids of the two ends of the
relation, with the default spring constant and nominal length. -/
def Edge.create (env : Env) (fromNode toNode : Node) (label : String) : Edge :=
  { id1 := fromNode.getID
    id2 := toNode.getID
    label := label
    length := env.edge_length
    nominal_length := env.edge_nominal_length
    spring_constant := env.edge_spring_constant }

/-- Modelled from the spec: the overload `Graph::addEdge(NodeRelation&)` that
`Node::addRelation` calls, which is not in the sources: nothing for a relation
from a node to itself; otherwise a new edge unless one already joins the
pair. -/
def Graph.addEdgeRel (env : Env) (g : Graph) (rel : NodeRelation) : Graph :=
  match StdMap.find g.nodes rel.from_, StdMap.find g.nodes rel.to_ with
  | some nf, some nt =>
      if rel.from_ = rel.to_ then g
      else if (g.getEdgesBetween nf nt).length = 0 then
        { g with edges := g.edges ++ [Edge.create env nf nt rel.label] }
      else g
  | _, _ => g

/-- Function `Node::addRelation` on the node stored under `self`: the new relation goes
to the back of the relation list, and the graph is asked for its edge.  The
replacement of an old `UNDEFINED` relation is only traced. -/
def Node.addRelation (env : Env) (g : Graph) (self to_ : Key) (type : relation_type)
    (label : String) : Graph :=
  let rel : NodeRelation := ⟨self, to_, type, label⟩
  let g1 : Graph :=
    { g with
      nodes := StdMap.modify g.nodes self (fun n => { n with relations := n.relations ++ [rel] }) }
  Graph.addEdgeRel env g1 rel

/-- Function `Graph::addEdge(from, to, type, label)`, on two nodes of the graph. -/
def Graph.addEdge (env : Env) (g : Graph) (from_ to_ : Key) (type : relation_type)
    (label : String) : Graph :=
  let g1 := Node.addRelation env g from_ to_ type label
  if from_ = to_ then g1
  else
    match StdMap.find g1.nodes from_, StdMap.find g1.nodes to_ with
    | some nf, some nt =>
        if (g1.getEdgesBetween nf nt).length = 0 then
          { g1 with edges := g1.edges ++ [Edge.create env nf nt label] }
        else g1
    | _, _ => g1

/-- The assignment of `recurseUpdateDistances` to the node stored under `k`. -/
def setDistance (m : NodeMap) (k : Key) (distance : Int) : NodeMap :=
  StdMap.modify m k (fun n =>
    { n with distance_to_selected := distance, distance_to_selected_updated := true })

/-- The body of the loop of `recurseUpdateDistances` for one connected node
`n`: the descent, when `n` is not the parent and is either not updated in this
pass or farther than `distance`.  `descend` is the recursive call. -/
def relaxNeighbour (descend : NodeMap → Key → Option Key → Int → Option NodeMap)
    (node : Key) (parent : Option Key) (distance : Int) (acc : NodeMap) (n : Key) :
    Option NodeMap :=
  match StdMap.find acc n with
  | none => none
  | some nd =>
      if some n ≠ parent ∧
          (nd.distance_to_selected_updated = false ∨ distance < nd.distance_to_selected)
      then descend acc n (some node) (distance + 1)
      else some acc

/-- Function `Graph::recurseUpdateDistances`.  The first argument bounds the depth of
the recursion; `none` is a run that needs more depth than that, or that follows
a pointer out of the node table. -/
def recurseUpdateDistances (env : Env) :
    Nat → NodeMap → Key → Option Key → Int → Option NodeMap
  | 0, _, _, _, _ => none
  | fuel + 1, m, node, parent, distance =>
      (env.getConnectedNodes (setDistance m node distance) node).foldlM
        (relaxNeighbour (recurseUpdateDistances env fuel) node parent distance)
        (setDistance m node distance)

/-- Function `Graph::updateDistances`.  The recursion gets the number of nodes as its
depth bound. -/
def Graph.updateDistances (env : Env) (g : Graph) : Option Graph :=
  if g.selectedNodes.isEmpty then
    some { g with nodes := g.nodes.map (fun kv => (kv.1, { kv.2 with distance_to_selected := -1 })) }
  else
    let cleared : NodeMap :=
      g.nodes.map (fun kv => (kv.1, { kv.2 with distance_to_selected_updated := false }))
    (g.selectedNodes.foldlM (fun acc node =>
        recurseUpdateDistances env g.nodes.length acc node none 0) cleared).map
      (fun m => { g with nodes := m })

/-- Function `Graph::select`, on a node of the graph. -/
def Graph.select (env : Env) (g : Graph) (node : Key) : Option Graph :=
  match StdMap.find g.nodes node with
  | none => none
  | some nd =>
      if nd.selected then some g
      else
        Graph.updateDistances env
          { g with
            nodes := StdMap.modify g.nodes node (fun n => n.setSelected true)
            selectedNodes :=
              if node ∈ g.selectedNodes then g.selectedNodes else g.selectedNodes ++ [node] }

/-- Function `Graph::deselect`, on a node of the graph. -/
def Graph.deselect (env : Env) (g : Graph) (node : Key) : Option Graph :=
  match StdMap.find g.nodes node with
  | none => none
  | some nd =>
      if !nd.selected then some g
      else
        Graph.updateDistances env
          { g with
            nodes := StdMap.modify g.nodes node (fun n => n.setSelected false)
            selectedNodes := g.selectedNodes.filter (fun k => k ≠ node) }

/-- Function `Graph::clearSelect`. -/
def Graph.clearSelect (env : Env) (g : Graph) : Option Graph :=
  Graph.updateDistances env
    { g with
      nodes := g.selectedNodes.foldl
        (fun m node => StdMap.modify m node (fun n => n.setSelected false)) g.nodes
      selectedNodes := [] }

/-- Function `Graph::addAlias`: the alias key is inserted for the node that `id` resolves
to; the exception of `getNode` passes through and nothing is inserted. -/
def Graph.addAlias (env : Env) (g : Graph) (alias_ id : String) : Except String Graph :=
  match g.getNode env id with
  | Except.error e => Except.error e
  | Except.ok p =>
      Except.ok { g with aliases := (StdMap.insert g.aliases (env.hash_value alias_) p).1 }

/-- Function `Graph::addNode`: the graph afterwards and the node returned.  The
`neighbour` hint only reaches the constructor of `Node`. -/
def Graph.addNode (env : Env) (g : Graph) (id label : String) (neighbour : Option Key)
    (type : node_type) (init : NodeInit) : Option (Graph × Key) :=
  let _ := neighbour
  let res := StdMap.insert g.nodes (env.hash_value id) (Node.create env id label type init)
  if !res.2 then some (g, env.hash_value id)
  else
    (Graph.updateDistances env
      { g with
        nodes := res.1
        aliases := (StdMap.insert g.aliases (env.hash_value id) (env.hash_value id)).1 }).map
      (fun g1 => (g1, env.hash_value id))

/-- Modelled from the spec: `Node::getConnectedNodes` (not in the sources), the
nodes linked to the node by any relation, in either direction: the targets of
its own relations, then the nodes that have a relation to it. -/
def connectedNodes (m : NodeMap) (k : Key) : List Key :=
  ((m.filter (fun kv => kv.1 = k)).map
      (fun kv => kv.2.relations.map (fun r => r.to_))).flatten ++
    (m.filter (fun kv => kv.2.relations.any (fun r => r.to_ = k))).map Prod.fst

/-- A concrete environment: the key of an id is the code of its first
character, and the neighbours are those of `connectedNodes`. -/
def demoEnv : Env :=
  { hash_value := fun s => ((s.get 0).toNat : Int)
    INITIAL_MASS := 1
    INITIAL_DAMPING := 1 / 2
    INITIAL_CHARGE := 10
    edge_spring_constant := 1
    edge_nominal_length := 1
    edge_length := 1
    getConnectedNodes := connectedNodes }

/-- The values a fresh node of the examples starts with. -/
def demoInit : NodeInit := ⟨⟨0, 0⟩, 0, 7, false⟩

/-! ## Reading the distance annotation -/

/-- The flag `distance_to_selected_updated` of the node stored under `k`. -/
def updOf (m : NodeMap) (k : Key) : Bool :=
  match StdMap.find m k with
  | some n => n.distance_to_selected_updated
  | none => false

/-- The member `distance_to_selected` of the node stored under `k`. -/
def distOf (m : NodeMap) (k : Key) : Int :=
  match StdMap.find m k with
  | some n => n.distance_to_selected
  | none => 0

/-- The relation lists of the node table, key by key. -/
def relsOf (m : NodeMap) : List (Key × List NodeRelation) :=
  m.map (fun kv => (kv.1, kv.2.relations))

/-- The undirected adjacency implied by the relations: `a` has a relation to
`b`, or `b` has a relation to `a`. -/
def Linked (m : NodeMap) (a b : Key) : Prop :=
  (∃ kv ∈ m, kv.1 = a ∧ ∃ r ∈ kv.2.relations, r.to_ = b) ∨
  (∃ kv ∈ m, kv.1 = b ∧ ∃ r ∈ kv.2.relations, r.to_ = a)

instance (m : NodeMap) (a b : Key) : Decidable (Linked m a b) := by
  unfold Linked; infer_instance

/-- Modelled from the spec: what `Node::getConnectedNodes` (not in the sources)
returns.  The neighbour lists of the environment are, in some order and with some
multiplicity, the nodes linked by a relation in either direction. -/
def ConnOK (env : Env) : Prop :=
  ∀ m a b, b ∈ env.getConnectedNodes m a ↔ Linked m a b

/-- Every relation of the node table points to a node of the table. -/
def RelationsInside (m : NodeMap) : Prop :=
  ∀ kv ∈ m, ∀ r ∈ kv.2.relations, r.to_ ∈ StdMap.keys m

instance (m : NodeMap) : Decidable (RelationsInside m) := by
  unfold RelationsInside; infer_instance

/-- A node `v` is `k` relation-hops away from some selected node. -/
inductive Hops (m : NodeMap) (sel : List Key) : Nat → Key → Prop where
  | start {s : Key} : s ∈ sel → Hops m sel 0 s
  | hop {k : Nat} {u v : Key} : Hops m sel k u → Linked m u v → Hops m sel (k + 1) v

/-- A node with everything but the distance annotation. -/
def Node.erased (n : Node) : Node :=
  { n with distance_to_selected := 0, distance_to_selected_updated := false }

/-- The node table with the distance annotation erased. -/
def core (m : NodeMap) : NodeMap := m.map (fun kv => (kv.1, kv.2.erased))

/-! ## The invariants of one distance pass -/

/-- What holds of the node table all through a pass that started from `m0`
with the selection `sel`: only the annotation has changed, and an updated node
carries the length of a walk to it from a selected node. -/
structure PassInv (m0 : NodeMap) (sel : List Key) (m : NodeMap) : Prop where
  core_eq : core m = core m0
  walk : ∀ u, updOf m u = true → ∃ k : Nat, distOf m u = (k : Int) ∧ Hops m0 sel k u

/-- The nodes on the call stack are updated and closer than `d`. -/
def StackOK (m : NodeMap) (S : List Key) (d : Int) : Prop :=
  ∀ u ∈ S, updOf m u = true ∧ distOf m u < d

/-- Every updated node off the call stack has all its neighbours updated and at
most one hop farther than itself. -/
def RelaxedExcept (m0 m : NodeMap) (S : List Key) : Prop :=
  ∀ u, updOf m u = true → u ∉ S →
    ∀ w, Linked m0 u w → updOf m w = true ∧ distOf m w ≤ distOf m u + 1

/-- From `m` to a later table `m1` of the same pass: updated nodes stay updated
and never get farther, and a node that is not updated at the end was not
touched. -/
structure Later (m m1 : NodeMap) : Prop where
  mono : ∀ u, updOf m u = true → updOf m1 u = true ∧ distOf m1 u ≤ distOf m u
  untouched : ∀ u, updOf m1 u = false → updOf m u = false ∧ distOf m1 u = distOf m u

/-- The updated nodes closer than `d` keep their distance. -/
def FrameBelow (m m1 : NodeMap) (d : Int) : Prop :=
  ∀ u, updOf m u = true → distOf m u < d → distOf m1 u = distOf m u

/-- The contract of a descent with depth budget `f`: entered on a node `v` off
the stack with a distance that is the length of a walk to `v`, it returns, and
`v` and everything it reached are relaxed. -/
def DescendOK (m0 : NodeMap) (sel : List Key)
    (descend : NodeMap → Key → Option Key → Int → Option NodeMap) (f : Nat) : Prop :=
  ∀ (m : NodeMap) (v : Key) (parent : Option Key) (k : Nat) (S : List Key),
    Hops m0 sel k v → PassInv m0 sel m → S.Nodup → (∀ u ∈ S, u ∈ StdMap.keys m0) →
    v ∈ StdMap.keys m0 → v ∉ S → (StdMap.keys m0).length ≤ f + S.length →
    StackOK m S (k : Int) → (∀ p, parent = some p → p ∈ S) →
    (updOf m v = true → (k : Int) ≤ distOf m v) → RelaxedExcept m0 m S →
    ∃ m1, descend m v parent (k : Int) = some m1 ∧ PassInv m0 sel m1 ∧ Later m m1 ∧
      FrameBelow m m1 (k : Int) ∧ RelaxedExcept m0 m1 S ∧
      updOf m1 v = true ∧ distOf m1 v = (k : Int)

/-! ## Runs of graph operations -/

/-- A call of the construction and selection interface of `Graph`. -/
inductive Op where
  | addNode (id label : String) (neighbour : Option Key) (type : node_type) (init : NodeInit)
  | addAlias (alias_ id : String)
  | addEdge (from_ to_ : Key) (type : relation_type) (label : String)
  | select (node : Key)
  | deselect (node : Key)
  | clearSelect

/-- The graph after one call.  An `addAlias` that throws leaves the graph as it
is; `addEdge`, `select` and `deselect` are calls on nodes of the graph, and
`none` is such a call on anything else, or a call that does not return. -/
def Graph.apply (env : Env) (g : Graph) : Op → Option Graph
  | Op.addNode id label neighbour type init =>
      (g.addNode env id label neighbour type init).map Prod.fst
  | Op.addAlias alias_ id =>
      match g.addAlias env alias_ id with
      | Except.ok g1 => some g1
      | Except.error _ => some g
  | Op.addEdge from_ to_ type label =>
      if from_ ∈ StdMap.keys g.nodes ∧ to_ ∈ StdMap.keys g.nodes then
        some (g.addEdge env from_ to_ type label)
      else none
  | Op.select node => g.select env node
  | Op.deselect node => g.deselect env node
  | Op.clearSelect => g.clearSelect env

/-- The graph after a sequence of calls. -/
def Graph.run (env : Env) (g : Graph) (ops : List Op) : Option Graph :=
  ops.foldlM (Graph.apply env) g

/-- Two edges join the same unordered pair of node ids. -/
def Edge.samePair (e1 e2 : Edge) : Prop :=
  (e1.id1 = e2.id1 ∧ e1.id2 = e2.id2) ∨ (e1.id1 = e2.id2 ∧ e1.id2 = e2.id1)

/-- The graphs the operations are meant for: relations point to nodes of the
table, and so does the selection set. -/
def Graph.WellFormed (g : Graph) : Prop :=
  RelationsInside g.nodes ∧ ∀ s ∈ g.selectedNodes, s ∈ StdMap.keys g.nodes

instance (g : Graph) : Decidable g.WellFormed := by
  unfold Graph.WellFormed; infer_instance

/-- The call `select(node)` for `true`, `deselect(node)` for `false`. -/
def selectCall (node : Key) (b : Bool) : Op :=
  if b then Op.select node else Op.deselect node

/-- The numbers of state-changing `select` and `deselect` calls in a sequence of
calls on one node, whose flag `selected` has the value `sel` before the
sequence: a `select` changes the state when the node is not selected, a
`deselect` when it is. -/
def stateChanging : Bool → List Bool → Nat × Nat
  | _, [] => (0, 0)
  | sel, true :: rest =>
      if sel then stateChanging sel rest
      else ((stateChanging true rest).1 + 1, (stateChanging true rest).2)
  | sel, false :: rest =>
      if sel then ((stateChanging false rest).1, (stateChanging false rest).2 + 1)
      else stateChanging sel rest

/-- The flag `selected` as a number. -/
def flagValue (b : Bool) : Int := if b then 1 else 0

/-! ## Concrete graphs -/

/-- The call `addNode(id, id, NULL, 0)`. -/
def opNode (id : String) : Op := Op.addNode id id none 0 demoInit

/-- The call `addEdge(from, to, UNDEFINED, "")`. -/
def opEdge (from_ to_ : Key) : Op := Op.addEdge from_ to_ relation_type.UNDEFINED ""

/-- The calls that build `demoCycle`. -/
def demoCycleOps : List Op :=
  [opNode "A", opNode "B", opNode "C", opNode "D", opNode "E",
    opEdge 65 66, opEdge 66 65, opEdge 66 67, opEdge 68 67, opEdge 68 65, opEdge 66 66,
    Op.select 65, Op.select 67]

/-- Four nodes `A`, `B`, `C`, `D` (keys 65 to 68) on a cycle `A - B - C - D - A`
with a doubled relation between `A` and `B`, a relation from `B` to itself and
a fifth node `E` apart; `A` and `C` are selected. -/
def demoCycle : Graph := (Graph.empty.run demoEnv demoCycleOps).getD Graph.empty

/-- Nodes `a` and `b` (keys 97 and 98), and `x` registered as an alias
of `a`. -/
def demoAliased : Graph :=
  (Graph.empty.run demoEnv [opNode "a", opNode "b", Op.addAlias "x" "a"]).getD Graph.empty

/-- The node `a` (key 97), and `b` registered as an alias of `a` before any
node `b` exists. -/
def demoAliasFirst : Graph :=
  (Graph.empty.run demoEnv [opNode "a", Op.addAlias "b" "a"]).getD Graph.empty

/-- Two linked nodes `A` and `B` (keys 65 and 66) with the initial charge
10, neither selected. -/
def demoPair : Graph :=
  (Graph.empty.run demoEnv [opNode "A", opNode "B", opEdge 65 66]).getD Graph.empty

/-- The charge of the node `A` of `demoPair` after a sequence of `select`
(`true`) and `deselect` (`false`) calls on it. -/
def demoChargeAfter (calls : List Bool) : Option ℚ :=
  (demoPair.run demoEnv (calls.map (selectCall 65))).bind
    (fun g1 => (StdMap.find g1.nodes 65).map Node.charge)

/-- The path `A - B - C - D` (keys 65 to 68), built with relations from `A` to
`B`, from `B` to `C` and from `D` to `C`, with `A` selected. -/
def demoPath : Graph :=
  (Graph.empty.run demoEnv
    [opNode "A", opNode "B", opNode "C", opNode "D",
      opEdge 65 66, opEdge 66 67, opEdge 68 67, Op.select 65]).getD Graph.empty

/-- Node `A` (key 65) selected, then node `E` (key 69) added while the
selection is not empty: `E` keeps the distance 7 its constructor left. -/
def demoApart : Graph :=
  (Graph.empty.run demoEnv [opNode "A", Op.select 65, opNode "E"]).getD Graph.empty

/-- The selection set and the flags `selected` agree: every member of the
selection set is a node of the table whose flag is set, and every node whose
flag is set is a member. -/
structure Graph.FlagsOK (g : Graph) : Prop where
  selected_flag : ∀ s ∈ g.selectedNodes,
    ∃ nd, StdMap.find g.nodes s = some nd ∧ nd.selected = true
  flag_selected : ∀ k nd, StdMap.find g.nodes k = some nd → nd.selected = true →
    k ∈ g.selectedNodes

/-- The selection invariant of the graph: the flags agree with the selection
set, and with an empty selection set every distance is -1. -/
def Graph.SelectionOK (g : Graph) : Prop :=
  g.FlagsOK ∧ (g.selectedNodes = [] → ∀ kv ∈ g.nodes, kv.2.distance_to_selected = -1)

/-- Nodes `A`, `B` linked, `A` selected, then `C` added (it keeps the distance 7
of its constructor), then `A` deselected. -/
def demoDeselectedOps : List Op :=
  [opNode "A", opNode "B", opEdge 65 66, Op.select 65, opNode "C", Op.deselect 65]

/-- The graph after `demoDeselectedOps`. -/
def demoDeselected : Graph := (Graph.empty.run demoEnv demoDeselectedOps).getD Graph.empty

/-! ## The call stack of the distance pass -/

/-- The recursion of `recurseUpdateDistances` with its call stack written out:
`stack` holds the nodes whose calls have not returned yet, and a call on a node
of the stack is `none`.  Everything else is as in `recurseUpdateDistances`. -/
def recurseOnStack (env : Env) :
    Nat → List Key → NodeMap → Key → Option Key → Int → Option NodeMap
  | 0, _, _, _, _, _ => none
  | fuel + 1, stack, m, node, parent, distance =>
      if node ∈ stack then none
      else
        (env.getConnectedNodes (setDistance m node distance) node).foldlM
          (relaxNeighbour (recurseOnStack env fuel (node :: stack)) node parent distance)
          (setDistance m node distance)

/-- The pass of `Graph::updateDistances` run with `recurseOnStack`, every
selected node starting on an empty call stack. -/
def Graph.updateDistancesOnStack (env : Env) (g : Graph) : Option Graph :=
  if g.selectedNodes.isEmpty then
    some { g with nodes := g.nodes.map (fun kv => (kv.1, { kv.2 with distance_to_selected := -1 })) }
  else
    let cleared : NodeMap :=
      g.nodes.map (fun kv => (kv.1, { kv.2 with distance_to_selected_updated := false }))
    (g.selectedNodes.foldlM (fun acc node =>
        recurseOnStack env g.nodes.length [] acc node none 0) cleared).map
      (fun m => { g with nodes := m })

/-! ## The simulation step -/

/-- Sum of two vectors, `operator+`. -/
def vec2.add {K : Type} [LinearOrderedField K] (a b : vec2 K) : vec2 K := ⟨a.x + b.x, a.y + b.y⟩

/-- Difference of two vectors, `operator-`. -/
def vec2.sub {K : Type} [LinearOrderedField K] (a b : vec2 K) : vec2 K := ⟨a.x - b.x, a.y - b.y⟩

/-- Product of a vector and a number, `operator*`. -/
def vec2.scale {K : Type} [LinearOrderedField K] (a : vec2 K) (t : K) : vec2 K :=
  ⟨a.x * t, a.y * t⟩

/-- Squared length, `length2()`. -/
def vec2.length2 {K : Type} [LinearOrderedField K] (a : vec2 K) : K := a.x * a.x + a.y * a.y

/-- Scalar product of two vectors. -/
def vec2.dot {K : Type} [LinearOrderedField K] (a b : vec2 K) : K := a.x * b.x + a.y * b.y

/-- Function `Graph::project`: the force of magnitude `force` along the
displacement `d`.  The square root is an argument, so that the function can be
read over the rationals (with the square root of the machine) and over the
reals (with the real square root). -/
def Graph.project {K : Type} [LinearOrderedField K] (sqrt : K → K) (force : K)
    (d : vec2 K) : vec2 K :=
  if d.y = 0 then ⟨force, 0⟩
  else if d.x = 0 then ⟨0, force⟩
  else
    let dydx := d.y / d.x
    let sqdydx := 1 / sqrt (1 + dydx * dydx)
    let rx := force * sqdydx
    let ry := force * sqdydx * |dydx|
    ⟨if d.x > 0 then -rx else rx, if d.y > 0 then -ry else ry⟩

/-- Function `Node::project`: as `Graph::project`, except that the two
axis-aligned cases return the number `res.x` or `res.y` where a vector is
expected; `ofScalar` is the conversion from a number to a vector that the
compiler inserts there (the declaration of `vec2f` is not in the sources). -/
def Node.project {K : Type} [LinearOrderedField K] (sqrt : K → K) (ofScalar : K → vec2 K)
    (force : K) (d : vec2 K) : vec2 K :=
  if d.y = 0 then ofScalar force
  else if d.x = 0 then ofScalar force
  else
    let dydx := d.y / d.x
    let sqdydx := 1 / sqrt (1 + dydx * dydx)
    let rx := force * sqdydx
    let ry := force * sqdydx * |dydx|
    ⟨if d.x > 0 then -rx else rx, if d.y > 0 then -ry else ry⟩

/-- What `Node::step` takes from elsewhere. -/
structure Physics where
  /-- Constant `MIN_KINETIC_ENERGY` of `macros.h`. -/
  MIN_KINETIC_ENERGY : ℚ
  /-- The square root of the machine, on the numbers of the embedding. -/
  sqrt : ℚ → ℚ
  /-- The conversion from a number to a `vec2f` used by `Node::project`. -/
  ofScalar : ℚ → vec2f
  /-- Function `NodeRelation::getEdge` (not in the sources): the edge that
  stands for the relation. -/
  getEdge : Graph → NodeRelation → Edge

/-- Function `Node::hookeAttractionWith` on the node `n`: nothing for a relation
from the node to itself, otherwise the spring force of the edge of the
relation, along the displacement to the target.  `none` is a relation whose
target is not in the node table. -/
def Node.hookeAttractionWith (phys : Physics) (g : Graph) (n : Node) (rel : NodeRelation) :
    Option vec2f :=
  if rel.to_ = rel.from_ then some ⟨0, 0⟩
  else
    match StdMap.find g.nodes rel.to_ with
    | none => none
    | some target =>
        let e := phys.getEdge g rel
        let f := - e.spring_constant * (e.length - e.nominal_length)
        let delta := target.pos.sub n.pos
        some (Node.project phys.sqrt phys.ofScalar f delta)

/-- The loop of `Node::step` that adds up the Hooke attraction of every
relation of the node, starting from the zero vector. -/
def Node.hookeForce (phys : Physics) (g : Graph) (n : Node) : Option vec2f :=
  n.relations.foldlM
    (fun force rel => (Node.hookeAttractionWith phys g n rel).map (fun h => force.add h))
    ⟨0, 0⟩

/-- Function `Node::updateKineticEnergy`. -/
def Node.updateKineticEnergy (n : Node) : Node :=
  { n with kinetic_energy := n.mass * n.speed.length2 }

/-- Function `Node::resetRenderers`. -/
def Node.resetRenderers (n : Node) : Node :=
  { n with stepDone := false, renderingDone := false }

/-- The body of `Node::step` once the Hooke force is summed: the speed is
updated and damped, the kinetic energy is recomputed, the position moves when
the energy exceeds the minimum, and `stepDone` is set. -/
def Node.integrate (phys : Physics) (n : Node) (force : vec2f) (dt : ℚ) : Node :=
  let n1 : Node := { n with speed := (n.speed.add (force.scale dt)).scale n.damping }
  let n2 := n1.updateKineticEnergy
  let n3 : Node :=
    if n2.kinetic_energy > phys.MIN_KINETIC_ENERGY then
      { n2 with pos := n2.pos.add (n2.speed.scale dt) }
    else n2
  { n3 with stepDone := true }

/-- Function `Node::step` on the node stored under `self`: nothing when
`stepDone` is set; otherwise the Hooke attraction of every relation is summed
and the node is integrated. -/
def Node.step (phys : Physics) (g : Graph) (self : Key) (dt : ℚ) : Option Graph :=
  match StdMap.find g.nodes self with
  | none => none
  | some n =>
      if !n.stepDone then
        match Node.hookeForce phys g n with
        | none => none
        | some force =>
            some { g with nodes := StdMap.modify g.nodes self
                                    (fun _ => n.integrate phys force dt) }
      else some g

/-- Modelled from the spec: `NodeRelation::getEdge`, the shared physical edge of
the pair of nodes of the relation: the first edge between the two nodes. -/
def edgeOf (g : Graph) (rel : NodeRelation) : Edge :=
  match StdMap.find g.nodes rel.from_, StdMap.find g.nodes rel.to_ with
  | some nf, some nt =>
      match g.getEdgesBetween nf nt with
      | e :: _ => e.2
      | [] => ⟨nf.id, nt.id, "", 0, 0, 0⟩
  | _, _ => ⟨"", "", "", 0, 0, 0⟩

/-- A concrete setting of the simulation: minimum kinetic energy 1/100, a
stand-in for the square root of the machine (no example depends on its
values), and both coordinates set by the conversion from a number. -/
def demoPhys : Physics :=
  { MIN_KINETIC_ENERGY := 1 / 100
    sqrt := fun x => x
    ofScalar := fun f => ⟨f, f⟩
    getEdge := edgeOf }

/-- One node `A` (key 65) with two relations to itself. -/
def demoSelf : Graph :=
  (Graph.empty.run demoEnv [opNode "A", opEdge 65 65, opEdge 65 65]).getD Graph.empty

end OroView

/-! # Theorems -/

namespace OroView

/-! ## `std::map` -/

theorem StdMap.find_eq_none_iff {α : Type} (m : List (Key × α)) (k : Key) :
    StdMap.find m k = none ↔ k ∉ StdMap.keys m := by
  induction m with
  | nil => simp [StdMap.find, StdMap.keys]
  | cons h t ih =>
    obtain ⟨k', v⟩ := h
    by_cases hk : k' = k
    · simp [StdMap.find, StdMap.keys, hk]
    · have hk2 : ¬ k = k' := fun e => hk e.symm
      simpa [StdMap.find, StdMap.keys, hk, hk2] using ih

theorem StdMap.find_isSome_of_mem {α : Type} (m : List (Key × α)) (k : Key)
    (h : k ∈ StdMap.keys m) : ∃ v, StdMap.find m k = some v := by
  cases hf : StdMap.find m k with
  | none => exact absurd h ((StdMap.find_eq_none_iff m k).1 hf)
  | some v => exact ⟨v, rfl⟩

theorem StdMap.mem_keys_of_find {α : Type} (m : List (Key × α)) (k : Key) (v : α)
    (h : StdMap.find m k = some v) : k ∈ StdMap.keys m := by
  by_contra hn
  rw [(StdMap.find_eq_none_iff m k).2 hn] at h
  cases h

theorem StdMap.mem_of_find {α : Type} (m : List (Key × α)) (k : Key) (v : α)
    (h : StdMap.find m k = some v) : (k, v) ∈ m := by
  induction m with
  | nil => simp [StdMap.find] at h
  | cons hd t ih =>
    obtain ⟨k', v'⟩ := hd
    by_cases hk : k' = k
    · simp [StdMap.find, hk] at h
      simp [hk, h]
    · simp [StdMap.find, hk] at h
      exact List.mem_cons_of_mem _ (ih h)

theorem StdMap.find_modify {α : Type} (m : List (Key × α)) (k k' : Key) (f : α → α) :
    StdMap.find (StdMap.modify m k f) k' =
      if k' = k then (StdMap.find m k).map f else StdMap.find m k' := by
  induction m with
  | nil => simp [StdMap.find, StdMap.modify]
  | cons hd t ih =>
    obtain ⟨k0, v⟩ := hd
    by_cases h0 : k0 = k
    · subst h0
      by_cases h1 : k' = k0
      · subst h1; simp [StdMap.find, StdMap.modify]
      · have h2 : ¬ k0 = k' := fun e => h1 e.symm
        simp [StdMap.find, StdMap.modify, h1, h2]
    · by_cases h1 : k' = k
      · subst h1
        simp [StdMap.find, StdMap.modify, h0] at ih ⊢
        exact ih
      · by_cases h2 : k0 = k'
        · simp [StdMap.find, StdMap.modify, h0, h1, h2]
        · simp [StdMap.find, StdMap.modify, h0, h1, h2] at ih ⊢
          exact ih

theorem StdMap.map_modify {α β : Type} (m : List (Key × α)) (k : Key) (f : α → α)
    (p : α → β) (hp : ∀ a, p (f a) = p a) :
    (StdMap.modify m k f).map (fun kv => (kv.1, p kv.2)) = m.map (fun kv => (kv.1, p kv.2)) := by
  induction m with
  | nil => simp [StdMap.modify]
  | cons hd t ih =>
    obtain ⟨k0, v⟩ := hd
    by_cases h0 : k0 = k
    · simp [StdMap.modify, h0, hp]
    · simp [StdMap.modify, h0, ih]

theorem StdMap.keys_modify {α : Type} (m : List (Key × α)) (k : Key) (f : α → α) :
    StdMap.keys (StdMap.modify m k f) = StdMap.keys m := by
  have h := StdMap.map_modify m k f (fun _ => ()) (fun _ => rfl)
  have h2 := congrArg (List.map Prod.fst) h
  simpa [StdMap.keys, List.map_map, Function.comp_def] using h2

theorem StdMap.find_place {α : Type} (m : List (Key × α)) (k k' : Key) (v : α)
    (hk : StdMap.find m k = none) :
    StdMap.find (StdMap.place m k v) k' = if k' = k then some v else StdMap.find m k' := by
  induction m with
  | nil =>
    by_cases h : k' = k
    · simp [StdMap.find, StdMap.place, h]
    · have h2 : ¬ k = k' := fun e => h e.symm
      simp [StdMap.find, StdMap.place, h, h2]
  | cons hd t ih =>
    obtain ⟨k0, v0⟩ := hd
    have hk0 : ¬ k0 = k := by
      intro e; simp [StdMap.find, e] at hk
    have hkt : StdMap.find t k = none := by
      simpa [StdMap.find, hk0] using hk
    by_cases hlt : k < k0
    · by_cases h : k' = k
      · simp [StdMap.find, StdMap.place, hlt, h]
      · have h2 : ¬ k = k' := fun e => h e.symm
        simp [StdMap.find, StdMap.place, hlt, h, h2]
    · by_cases h : k' = k
      · subst h
        simp [StdMap.find, StdMap.place, hlt, hk0, ih hkt]
      · by_cases h3 : k0 = k'
        · subst h3
          simp [StdMap.find, StdMap.place, hlt, h]
        · simp [StdMap.find, StdMap.place, hlt, h, h3, ih hkt]

end OroView

namespace OroView

/-! ## The distance annotation -/

theorem keys_setDistance (m : NodeMap) (k : Key) (d : Int) :
    StdMap.keys (setDistance m k d) = StdMap.keys m :=
  StdMap.keys_modify m k _

theorem core_setDistance (m : NodeMap) (k : Key) (d : Int) :
    core (setDistance m k d) = core m :=
  StdMap.map_modify m k _ Node.erased (fun _ => rfl)

theorem updOf_setDistance_self (m : NodeMap) (k : Key) (d : Int)
    (h : k ∈ StdMap.keys m) : updOf (setDistance m k d) k = true := by
  obtain ⟨n, hn⟩ := StdMap.find_isSome_of_mem m k h
  simp [updOf, setDistance, StdMap.find_modify, hn]

theorem distOf_setDistance_self (m : NodeMap) (k : Key) (d : Int)
    (h : k ∈ StdMap.keys m) : distOf (setDistance m k d) k = d := by
  obtain ⟨n, hn⟩ := StdMap.find_isSome_of_mem m k h
  simp [distOf, setDistance, StdMap.find_modify, hn]

theorem updOf_setDistance_ne (m : NodeMap) (k k' : Key) (d : Int) (h : k' ≠ k) :
    updOf (setDistance m k d) k' = updOf m k' := by
  simp [updOf, setDistance, StdMap.find_modify, h]

theorem distOf_setDistance_ne (m : NodeMap) (k k' : Key) (d : Int) (h : k' ≠ k) :
    distOf (setDistance m k d) k' = distOf m k' := by
  simp [distOf, setDistance, StdMap.find_modify, h]

theorem keys_eq_of_core {m m1 : NodeMap} (h : core m1 = core m) :
    StdMap.keys m1 = StdMap.keys m := by
  have h2 := congrArg (List.map Prod.fst) h
  simpa [core, StdMap.keys, List.map_map, Function.comp_def] using h2

theorem relsOf_eq_of_core {m m1 : NodeMap} (h : core m1 = core m) :
    relsOf m1 = relsOf m := by
  have h2 := congrArg (List.map (fun kv : Key × Node => (kv.1, kv.2.relations))) h
  simpa [core, relsOf, List.map_map, Function.comp_def, Node.erased] using h2

theorem relsOf_points (m : NodeMap) (a b : Key) :
    (∃ kv ∈ m, kv.1 = a ∧ ∃ r ∈ kv.2.relations, r.to_ = b) ↔
      (∃ p ∈ relsOf m, p.1 = a ∧ ∃ r ∈ p.2, r.to_ = b) := by
  constructor
  · rintro ⟨kv, hkv, h1, h2⟩
    exact ⟨(kv.1, kv.2.relations), List.mem_map_of_mem _ hkv, h1, h2⟩
  · rintro ⟨p, hp, h1, h2⟩
    simp only [relsOf, List.mem_map] at hp
    obtain ⟨kv, hkv, he⟩ := hp
    subst he
    exact ⟨kv, hkv, h1, h2⟩

theorem Linked_iff_relsOf (m : NodeMap) (a b : Key) :
    Linked m a b ↔
      (∃ p ∈ relsOf m, p.1 = a ∧ ∃ r ∈ p.2, r.to_ = b) ∨
      (∃ p ∈ relsOf m, p.1 = b ∧ ∃ r ∈ p.2, r.to_ = a) := by
  unfold Linked
  rw [relsOf_points m a b, relsOf_points m b a]

theorem Linked_of_relsOf {m m1 : NodeMap} (h : relsOf m1 = relsOf m) (a b : Key) :
    Linked m1 a b ↔ Linked m a b := by
  rw [Linked_iff_relsOf, Linked_iff_relsOf, h]

theorem Linked_symm {m : NodeMap} {a b : Key} (h : Linked m a b) : Linked m b a := by
  rcases h with h | h
  · exact Or.inr h
  · exact Or.inl h

theorem Linked_mem_keys {m : NodeMap} (hin : RelationsInside m) {a b : Key}
    (h : Linked m a b) : b ∈ StdMap.keys m := by
  rcases h with ⟨kv, hkv, _, r, hr, hb⟩ | ⟨kv, hkv, hb, _⟩
  · exact hb ▸ hin kv hkv r hr
  · exact hb ▸ List.mem_map_of_mem Prod.fst hkv

theorem relaxNeighbour_eq (descend : NodeMap → Key → Option Key → Int → Option NodeMap)
    (node : Key) (parent : Option Key) (d : Int) (acc : NodeMap) (n : Key)
    (h : n ∈ StdMap.keys acc) :
    relaxNeighbour descend node parent d acc n =
      if some n ≠ parent ∧ (updOf acc n = false ∨ d < distOf acc n)
      then descend acc n (some node) (d + 1) else some acc := by
  obtain ⟨nd, hn⟩ := StdMap.find_isSome_of_mem acc n h
  simp [relaxNeighbour, updOf, distOf, hn]

theorem later_refl (m : NodeMap) : Later m m :=
  ⟨fun _ h => ⟨h, le_refl _⟩, fun _ h => ⟨h, rfl⟩⟩

theorem later_trans {m m1 m2 : NodeMap} (h1 : Later m m1) (h2 : Later m1 m2) : Later m m2 := by
  constructor
  · intro u hu
    obtain ⟨a, b⟩ := h1.mono u hu
    obtain ⟨c, d⟩ := h2.mono u a
    exact ⟨c, le_trans d b⟩
  · intro u hu
    obtain ⟨a, b⟩ := h2.untouched u hu
    obtain ⟨c, d⟩ := h1.untouched u a
    exact ⟨c, b.trans d⟩

theorem frameBelow_trans {m m1 m2 : NodeMap} {d : Int} (l1 : Later m m1)
    (h1 : FrameBelow m m1 d) (h2 : FrameBelow m1 m2 d) : FrameBelow m m2 d := by
  intro u hu hd
  have e1 := h1 u hu hd
  have e2 := h2 u (l1.mono u hu).1 (by rw [e1]; exact hd)
  rw [e2, e1]

theorem frameBelow_weaken {m m1 : NodeMap} {d e : Int} (h : FrameBelow m m1 e)
    (hde : d ≤ e) : FrameBelow m m1 d :=
  fun u hu hd => h u hu (lt_of_lt_of_le hd hde)

theorem stackOK_later {m m1 : NodeMap} {S : List Key} {d : Int} (h : StackOK m S d)
    (l : Later m m1) (f : FrameBelow m m1 d) : StackOK m1 S d := by
  intro u hu
  obtain ⟨a, b⟩ := h u hu
  exact ⟨(l.mono u a).1, by rw [f u a b]; exact b⟩

/-! ## One call of `recurseUpdateDistances` -/

theorem relax_loop (m0 : NodeMap) (sel : List Key) (hin : RelationsInside m0)
    (descend : NodeMap → Key → Option Key → Int → Option NodeMap) (f : Nat)
    (hdesc : DescendOK m0 sel descend f)
    (v : Key) (parent : Option Key) (k : Nat) (S : List Key)
    (hnd : (v :: S).Nodup) (hSk : ∀ u ∈ v :: S, u ∈ StdMap.keys m0)
    (hlen : (StdMap.keys m0).length ≤ f + (v :: S).length)
    (hpar : ∀ p, parent = some p → p ∈ S)
    (hv : Hops m0 sel k v) :
    ∀ (L : List Key), (∀ w ∈ L, Linked m0 v w) → ∀ m : NodeMap,
      PassInv m0 sel m → StackOK m (v :: S) ((k : Int) + 1) → RelaxedExcept m0 m (v :: S) →
      ∃ m1, L.foldlM (relaxNeighbour descend v parent (k : Int)) m = some m1 ∧
        PassInv m0 sel m1 ∧ Later m m1 ∧ FrameBelow m m1 ((k : Int) + 1) ∧
        RelaxedExcept m0 m1 (v :: S) ∧
        ∀ w ∈ L, updOf m1 w = true ∧ distOf m1 w ≤ (k : Int) + 1 := by
  intro L
  induction L with
  | nil =>
    intro _ m hp _ hr
    exact ⟨m, rfl, hp, later_refl m, fun _ _ _ => rfl, hr, by simp⟩
  | cons w rest ih =>
    intro hL m hp hs hr
    have hw : Linked m0 v w := hL w (List.mem_cons_self _ _)
    have hwk : w ∈ StdMap.keys m0 := Linked_mem_keys hin hw
    have hwk1 : w ∈ StdMap.keys m := by rw [keys_eq_of_core hp.core_eq]; exact hwk
    have hrest : ∀ x ∈ rest, Linked m0 v x := fun x hx => hL x (List.mem_cons_of_mem _ hx)
    rw [List.foldlM_cons, relaxNeighbour_eq _ _ _ _ _ _ hwk1]
    by_cases hc : some w ≠ parent ∧ (updOf m w = false ∨ (k : Int) < distOf m w)
    · rw [if_pos hc]
      have hwS : w ∉ v :: S := by
        intro hmem
        obtain ⟨a, b⟩ := hs w hmem
        rcases hc.2 with h | h
        · rw [a] at h; cases h
        · omega
      have hs1 : StackOK m (v :: S) ((k + 1 : Nat) : Int) := by
        intro u hu
        obtain ⟨a, b⟩ := hs u hu
        exact ⟨a, by push_cast; exact b⟩
      have hpre : updOf m w = true → ((k + 1 : Nat) : Int) ≤ distOf m w := by
        intro hu
        rcases hc.2 with h | h
        · rw [hu] at h; cases h
        · push_cast; omega
      have hlen1 : (StdMap.keys m0).length ≤ f + (v :: S).length := hlen
      obtain ⟨m1, e1, p1, l1, f1, r1, u1, d1⟩ :=
        hdesc m w (some v) (k + 1) (v :: S) (Hops.hop hv hw) hp hnd hSk hwk hwS hlen1 hs1
          (by intro p hp1; cases hp1; exact List.mem_cons_self _ _) hpre hr
      push_cast at e1 f1 d1
      have hs2 : StackOK m1 (v :: S) ((k : Int) + 1) := stackOK_later hs l1 f1
      obtain ⟨m2, e2, p2, l2, f2, r2, a2⟩ := ih hrest m1 p1 hs2 r1
      refine ⟨m2, ?_, p2, later_trans l1 l2, frameBelow_trans l1 f1 f2, r2, ?_⟩
      · rw [e1]; exact e2
      · intro x hx
        rcases List.mem_cons.1 hx with hxw | hx
        · subst hxw
          obtain ⟨a, b⟩ := l2.mono x u1
          exact ⟨a, by rw [d1] at b; exact b⟩
        · exact a2 x hx
    · rw [if_neg hc]
      have hwok : updOf m w = true ∧ distOf m w ≤ (k : Int) + 1 := by
        by_cases hp1 : some w = parent
        · obtain ⟨a, b⟩ := hs w (List.mem_cons_of_mem _ (hpar w hp1.symm))
          exact ⟨a, le_of_lt b⟩
        · have hn : ¬ (updOf m w = false ∨ (k : Int) < distOf m w) := fun h => hc ⟨hp1, h⟩
          push_neg at hn
          obtain ⟨a, b⟩ := hn
          simp only [Bool.not_eq_false] at a
          exact ⟨a, by omega⟩
      obtain ⟨m2, e2, p2, l2, f2, r2, a2⟩ := ih hrest m hp hs hr
      refine ⟨m2, e2, p2, l2, f2, r2, ?_⟩
      intro x hx
      rcases List.mem_cons.1 hx with hxw | hx
      · subst hxw
        obtain ⟨a, b⟩ := l2.mono x hwok.1
        exact ⟨a, le_trans b hwok.2⟩
      · exact a2 x hx

theorem recurse_ok (env : Env) (hconn : ConnOK env) (m0 : NodeMap) (sel : List Key)
    (hin : RelationsInside m0) :
    ∀ f, DescendOK m0 sel (recurseUpdateDistances env f) f := by
  intro f
  induction f with
  | zero =>
    intro m v parent k S _ _ hnd hSk hvk hvS hlen _ _ _ _
    exfalso
    have hnd1 : (v :: S).Nodup := List.nodup_cons.2 ⟨hvS, hnd⟩
    have hsub : (v :: S) ⊆ StdMap.keys m0 := by
      intro u hu
      rcases List.mem_cons.1 hu with h | h
      · exact h ▸ hvk
      · exact hSk u h
    have := (List.subperm_of_subset hnd1 hsub).length_le
    simp only [List.length_cons] at this
    omega
  | succ f ih =>
    intro m v parent k S hv hp hnd hSk hvk hvS hlen hs hpar hpre hr
    have hvk1 : v ∈ StdMap.keys m := by rw [keys_eq_of_core hp.core_eq]; exact hvk
    have hnd1 : (v :: S).Nodup := List.nodup_cons.2 ⟨hvS, hnd⟩
    have hSk1 : ∀ u ∈ v :: S, u ∈ StdMap.keys m0 := by
      intro u hu
      rcases List.mem_cons.1 hu with h | h
      · exact h ▸ hvk
      · exact hSk u h
    have hset_u : updOf (setDistance m v k) v = true := updOf_setDistance_self m v k hvk1
    have hset_d : distOf (setDistance m v k) v = k := distOf_setDistance_self m v k hvk1
    have hcore : core (setDistance m v k) = core m0 := by
      rw [core_setDistance]; exact hp.core_eq
    -- the table right after the two assignments
    have p1 : PassInv m0 sel (setDistance m v k) := by
      refine ⟨hcore, ?_⟩
      intro u hu
      by_cases huv : u = v
      · subst huv; exact ⟨k, hset_d, hv⟩
      · rw [updOf_setDistance_ne m v u k huv] at hu
        rw [distOf_setDistance_ne m v u k huv]
        exact hp.walk u hu
    have s1 : StackOK (setDistance m v k) (v :: S) ((k : Int) + 1) := by
      intro u hu
      rcases List.mem_cons.1 hu with h | h
      · subst h; exact ⟨hset_u, by rw [hset_d]; omega⟩
      · have huv : u ≠ v := fun e => hvS (e ▸ h)
        rw [updOf_setDistance_ne m v u k huv, distOf_setDistance_ne m v u k huv]
        obtain ⟨a, b⟩ := hs u h
        exact ⟨a, by omega⟩
    have l1 : Later m (setDistance m v k) := by
      constructor
      · intro u hu
        by_cases huv : u = v
        · subst huv; exact ⟨hset_u, by rw [hset_d]; exact hpre hu⟩
        · rw [updOf_setDistance_ne m v u k huv, distOf_setDistance_ne m v u k huv]
          exact ⟨hu, le_refl _⟩
      · intro u hu
        have huv : u ≠ v := by
          intro e; subst e; rw [hset_u] at hu; cases hu
        rw [updOf_setDistance_ne m v u k huv] at hu
        exact ⟨hu, distOf_setDistance_ne m v u k huv⟩
    have f1 : FrameBelow m (setDistance m v k) (k : Int) := by
      intro u hu hd
      have huv : u ≠ v := by
        intro e; subst e; have := hpre hu; omega
      exact distOf_setDistance_ne m v u k huv
    have r1 : RelaxedExcept m0 (setDistance m v k) (v :: S) := by
      intro u hu huS w hw
      have huv : u ≠ v := fun e => huS (e ▸ List.mem_cons_self _ _)
      have huS1 : u ∉ S := fun h => huS (List.mem_cons_of_mem _ h)
      rw [updOf_setDistance_ne m v u k huv] at hu
      rw [distOf_setDistance_ne m v u k huv]
      obtain ⟨a, b⟩ := hr u hu huS1 w hw
      by_cases hwv : w = v
      · subst hwv
        exact ⟨hset_u, by rw [hset_d]; exact le_trans (hpre a) b⟩
      · rw [updOf_setDistance_ne m v w k hwv, distOf_setDistance_ne m v w k hwv]
        exact ⟨a, b⟩
    have hL : ∀ w ∈ env.getConnectedNodes (setDistance m v k) v, Linked m0 v w := by
      intro w hw
      exact (Linked_of_relsOf (relsOf_eq_of_core hcore) v w).1 ((hconn _ v w).1 hw)
    have hlen1 : (StdMap.keys m0).length ≤ f + (v :: S).length := by
      simp only [List.length_cons]; omega
    obtain ⟨m2, e2, p2, l2, f2, r2, a2⟩ :=
      relax_loop m0 sel hin (recurseUpdateDistances env f) f ih v parent k S hnd1 hSk1 hlen1
        hpar hv _ hL (setDistance m v k) p1 s1 r1
    have hv2 : distOf m2 v = k := by
      rw [f2 v hset_u (by rw [hset_d]; omega), hset_d]
    have hu2 : updOf m2 v = true := (l2.mono v hset_u).1
    refine ⟨m2, e2, p2, later_trans l1 l2, frameBelow_trans l1 f1 (frameBelow_weaken f2 (by omega)), ?_, hu2, hv2⟩
    intro u hu huS w hw
    by_cases huv : u = v
    · subst huv
      have hwL : w ∈ env.getConnectedNodes (setDistance m u k) u :=
        (hconn _ u w).2 ((Linked_of_relsOf (relsOf_eq_of_core hcore) u w).2 hw)
      obtain ⟨a, b⟩ := a2 w hwL
      exact ⟨a, by rw [hv2]; exact b⟩
    · have huS1 : u ∉ v :: S := by
        intro h
        rcases List.mem_cons.1 h with h | h
        · exact huv h
        · exact huS h
      exact r2 u hu huS1 w hw

/-! ## The whole pass -/

theorem StdMap.find_map {α β : Type} (m : List (Key × α)) (k : Key) (p : α → β) :
    StdMap.find (m.map (fun kv => (kv.1, p kv.2))) k = (StdMap.find m k).map p := by
  induction m with
  | nil => simp [StdMap.find]
  | cons hd t ih =>
    obtain ⟨k0, v⟩ := hd
    by_cases h : k0 = k
    · simp [StdMap.find, h]
    · simpa [StdMap.find, h] using ih

theorem roots_ok (env : Env) (hconn : ConnOK env) (m0 : NodeMap) (sel : List Key)
    (hin : RelationsInside m0) (hsel : ∀ s ∈ sel, s ∈ StdMap.keys m0) :
    ∀ (L : List Key), (∀ s ∈ L, s ∈ sel) → ∀ m : NodeMap,
      PassInv m0 sel m → RelaxedExcept m0 m [] →
      ∃ m1, L.foldlM (fun acc node =>
                recurseUpdateDistances env m0.length acc node none 0) m = some m1 ∧
        PassInv m0 sel m1 ∧ Later m m1 ∧ RelaxedExcept m0 m1 [] ∧
        ∀ s ∈ L, updOf m1 s = true ∧ distOf m1 s ≤ 0 := by
  intro L
  induction L with
  | nil =>
    intro _ m hp hr
    exact ⟨m, rfl, hp, later_refl m, hr, by simp⟩
  | cons s rest ih =>
    intro hL m hp hr
    have hs : s ∈ sel := hL s (List.mem_cons_self _ _)
    have hpre : updOf m s = true → ((0 : Nat) : Int) ≤ distOf m s := by
      intro hu
      obtain ⟨k, hk, _⟩ := hp.walk s hu
      rw [hk]; exact Int.ofNat_le.2 (Nat.zero_le k)
    obtain ⟨m1, e1, p1, l1, _, r1, u1, d1⟩ :=
      recurse_ok env hconn m0 sel hin m0.length m s none 0 [] (Hops.start hs) hp
        List.nodup_nil (by simp) (hsel s hs) (by simp) (by simp [StdMap.keys])
        (by intro u hu; cases hu) (by intro p hp1; cases hp1) hpre hr
    obtain ⟨m2, e2, p2, l2, r2, a2⟩ :=
      ih (fun x hx => hL x (List.mem_cons_of_mem _ hx)) m1 p1 r1
    refine ⟨m2, ?_, p2, later_trans l1 l2, r2, ?_⟩
    · rw [List.foldlM_cons]
      have e1b : recurseUpdateDistances env m0.length m s none 0 = some m1 := by
        simpa using e1
      rw [e1b]; exact e2
    · intro x hx
      rcases List.mem_cons.1 hx with hxs | hx
      · subst hxs
        obtain ⟨a, b⟩ := l2.mono x u1
        exact ⟨a, by rw [d1] at b; simpa using b⟩
      · exact a2 x hx

theorem hops_bound {m0 m : NodeMap} {sel : List Key} (hr : RelaxedExcept m0 m [])
    (h0 : ∀ s ∈ sel, updOf m s = true ∧ distOf m s ≤ 0) :
    ∀ (k : Nat) (v : Key), Hops m0 sel k v → updOf m v = true ∧ distOf m v ≤ (k : Int) := by
  intro k v h
  induction h with
  | start hs => simpa using h0 _ hs
  | hop _ hl ih =>
    obtain ⟨a, b⟩ := hr _ ih.1 (by simp) _ hl
    exact ⟨a, by push_cast; omega⟩

/-- The table with every `distance_to_selected_updated` cleared. -/
theorem cleared_facts (m0 : NodeMap) :
    core (m0.map (fun kv => (kv.1, { kv.2 with distance_to_selected_updated := false }))) =
        core m0 ∧
      (∀ u, updOf (m0.map (fun kv =>
          (kv.1, { kv.2 with distance_to_selected_updated := false }))) u = false) ∧
      (∀ u, distOf (m0.map (fun kv =>
          (kv.1, { kv.2 with distance_to_selected_updated := false }))) u = distOf m0 u) := by
  refine ⟨?_, ?_, ?_⟩
  · simp [core, List.map_map, Function.comp_def, Node.erased]
  · intro u
    have h := StdMap.find_map m0 u
      (fun n : Node => { n with distance_to_selected_updated := false })
    unfold updOf
    rw [h]
    cases StdMap.find m0 u <;> simp
  · intro u
    have h := StdMap.find_map m0 u
      (fun n : Node => { n with distance_to_selected_updated := false })
    unfold distOf
    rw [h]
    cases StdMap.find m0 u <;> simp

/-- The pass of `updateDistances` with a non-empty selection returns, changes
only the annotation, gives every node that some walk reaches the length of a
shortest walk, and leaves the other nodes as they were. -/
theorem updateDistances_pass (env : Env) (hconn : ConnOK env) (g : Graph)
    (hne : g.selectedNodes ≠ []) (hsel : ∀ s ∈ g.selectedNodes, s ∈ StdMap.keys g.nodes)
    (hin : RelationsInside g.nodes) :
    ∃ m1, g.updateDistances env = some { g with nodes := m1 } ∧
      core m1 = core g.nodes ∧
      (∀ (k : Nat) (v : Key), Hops g.nodes g.selectedNodes k v →
        updOf m1 v = true ∧ distOf m1 v ≤ (k : Int)) ∧
      (∀ v, updOf m1 v = true →
        ∃ j : Nat, distOf m1 v = (j : Int) ∧ Hops g.nodes g.selectedNodes j v) ∧
      (∀ v, updOf m1 v = false → distOf m1 v = distOf g.nodes v) := by
  obtain ⟨hc, hu, hd⟩ := cleared_facts g.nodes
  have p0 : PassInv g.nodes g.selectedNodes
      (g.nodes.map (fun kv => (kv.1, { kv.2 with distance_to_selected_updated := false }))) :=
    ⟨hc, fun u h => by rw [hu u] at h; cases h⟩
  have r0 : RelaxedExcept g.nodes
      (g.nodes.map (fun kv => (kv.1, { kv.2 with distance_to_selected_updated := false }))) [] :=
    fun u h => by rw [hu u] at h; cases h
  obtain ⟨m1, e1, p1, l1, r1, a1⟩ :=
    roots_ok env hconn g.nodes g.selectedNodes hin hsel g.selectedNodes (fun _ h => h) _ p0 r0
  refine ⟨m1, ?_, p1.core_eq, hops_bound r1 a1, p1.walk, ?_⟩
  · unfold Graph.updateDistances
    have hemp : g.selectedNodes.isEmpty = false := by
      cases hs : g.selectedNodes with
      | nil => exact absurd hs hne
      | cons _ _ => rfl
    simp only [hemp, Bool.false_eq_true, if_false]
    rw [e1]; rfl
  · intro v hv
    obtain ⟨_, b⟩ := l1.untouched v hv
    rw [b, hd v]

/-! ## The neighbours of the concrete environment -/

theorem connectedNodes_spec (m : NodeMap) (a b : Key) :
    b ∈ connectedNodes m a ↔ Linked m a b := by
  unfold connectedNodes Linked
  rw [List.mem_append]
  apply or_congr
  · simp only [List.mem_flatten, List.mem_map, List.mem_filter, decide_eq_true_eq]
    constructor
    · rintro ⟨l, ⟨kv, ⟨hkv, hk⟩, rfl⟩, hb⟩
      obtain ⟨r, hr, rfl⟩ := List.mem_map.1 hb
      exact ⟨kv, hkv, hk, r, hr, rfl⟩
    · rintro ⟨kv, hkv, hk, r, hr, rfl⟩
      exact ⟨_, ⟨kv, ⟨hkv, hk⟩, rfl⟩, List.mem_map.2 ⟨r, hr, rfl⟩⟩
  · simp only [List.mem_map, List.mem_filter, List.any_eq_true, decide_eq_true_eq]
    constructor
    · rintro ⟨kv, ⟨hkv, r, hr, hra⟩, rfl⟩
      exact ⟨kv, hkv, rfl, r, hr, hra⟩
    · rintro ⟨kv, hkv, rfl, r, hr, hra⟩
      exact ⟨kv, ⟨hkv, r, hr, hra⟩, rfl⟩

theorem connOK_demoEnv : ConnOK demoEnv := fun m a b => connectedNodes_spec m a b

/-! ## Claims -/

/-- C2: with a non-empty selection whose nodes are in the node table,
`updateDistances` returns, and every node that a walk over the undirected
relation adjacency reaches from a selected node ends with `distance_to_selected`
equal to the least number of hops of such a walk; every selected node ends
with 0.  This holds for every selection list and every order of the neighbour
lists. -/
theorem updateDistances_min_hops (env : Env) (hconn : ConnOK env) (g : Graph)
    (hne : g.selectedNodes ≠ []) (hsel : ∀ s ∈ g.selectedNodes, s ∈ StdMap.keys g.nodes)
    (hin : RelationsInside g.nodes) :
    ∃ g1, g.updateDistances env = some g1 ∧
      (∀ (k : Nat) (v : Key), Hops g.nodes g.selectedNodes k v →
        ∃ (n : Node) (j : Nat), StdMap.find g1.nodes v = some n ∧
          n.distance_to_selected = (j : Int) ∧ Hops g.nodes g.selectedNodes j v ∧
          ∀ i, Hops g.nodes g.selectedNodes i v → j ≤ i) ∧
      (∀ s ∈ g.selectedNodes,
        ∃ n, StdMap.find g1.nodes s = some n ∧ n.distance_to_selected = 0) := by
  obtain ⟨m1, e1, _, hub, hwalk, _⟩ := updateDistances_pass env hconn g hne hsel hin
  have key : ∀ (k : Nat) (v : Key), Hops g.nodes g.selectedNodes k v →
      ∃ (n : Node) (j : Nat), StdMap.find m1 v = some n ∧
        n.distance_to_selected = (j : Int) ∧ Hops g.nodes g.selectedNodes j v ∧
        ∀ i, Hops g.nodes g.selectedNodes i v → j ≤ i := by
    intro k v hk
    obtain ⟨hu, _⟩ := hub k v hk
    obtain ⟨j, hj, hjw⟩ := hwalk v hu
    cases hf : StdMap.find m1 v with
    | none => simp [updOf, hf] at hu
    | some n =>
      refine ⟨n, j, rfl, ?_, hjw, ?_⟩
      · simpa [distOf, hf] using hj
      · intro i hi
        have := (hub i v hi).2
        rw [hj] at this
        exact Int.ofNat_le.1 this
  refine ⟨{ g with nodes := m1 }, e1, key, ?_⟩
  intro s hs
  obtain ⟨n, j, hf, hd, _, hmin⟩ := key 0 s (Hops.start hs)
  have hj : j = 0 := Nat.le_zero.1 (hmin 0 (Hops.start hs))
  exact ⟨n, hf, by rw [hd, hj]; rfl⟩

theorem updateDistances_min_hops_witness :
    ∃ g1, demoCycle.updateDistances demoEnv = some g1 ∧
      (∀ (k : Nat) (v : Key), Hops demoCycle.nodes demoCycle.selectedNodes k v →
        ∃ (n : Node) (j : Nat), StdMap.find g1.nodes v = some n ∧
          n.distance_to_selected = (j : Int) ∧
          Hops demoCycle.nodes demoCycle.selectedNodes j v ∧
          ∀ i, Hops demoCycle.nodes demoCycle.selectedNodes i v → j ≤ i) ∧
      (∀ s ∈ demoCycle.selectedNodes,
        ∃ n, StdMap.find g1.nodes s = some n ∧ n.distance_to_selected = 0) :=
  updateDistances_min_hops demoEnv connOK_demoEnv demoCycle (by decide) (by decide) (by decide)

/-- C5: with an empty selection set, `updateDistances` returns the graph in
which every node of the node table has `distance_to_selected = -1`, whatever
the values were before; the keys and everything else are as they were. -/
theorem updateDistances_empty_selection (env : Env) (g : Graph)
    (hsel : g.selectedNodes = []) :
    ∃ g1, g.updateDistances env = some g1 ∧
      (∀ kv ∈ g1.nodes, kv.2.distance_to_selected = -1) ∧
      StdMap.keys g1.nodes = StdMap.keys g.nodes ∧
      (∀ k n, StdMap.find g.nodes k = some n →
        StdMap.find g1.nodes k = some { n with distance_to_selected := -1 }) := by
  refine ⟨{ g with
      nodes := g.nodes.map (fun kv => (kv.1, { kv.2 with distance_to_selected := -1 })) },
    ?_, ?_, ?_, ?_⟩
  · simp [Graph.updateDistances, hsel]
  · intro kv hkv
    simp only [List.mem_map] at hkv
    obtain ⟨kv0, _, rfl⟩ := hkv
    rfl
  · simp [StdMap.keys, List.map_map, Function.comp_def]
  · intro k n hk
    have h := StdMap.find_map g.nodes k (fun n : Node => { n with distance_to_selected := -1 })
    simp only at h ⊢
    rw [h, hk]; rfl

theorem updateDistances_empty_selection_witness :
    ∃ g1, ({ demoCycle with selectedNodes := [] } : Graph).updateDistances demoEnv = some g1 ∧
      (∀ kv ∈ g1.nodes, kv.2.distance_to_selected = -1) ∧
      StdMap.keys g1.nodes =
        StdMap.keys ({ demoCycle with selectedNodes := [] } : Graph).nodes ∧
      (∀ k n, StdMap.find ({ demoCycle with selectedNodes := [] } : Graph).nodes k = some n →
        StdMap.find g1.nodes k = some { n with distance_to_selected := -1 }) :=
  updateDistances_empty_selection demoEnv { demoCycle with selectedNodes := [] } rfl

/-- C7: `getEdgesBetween(a, b)` and `getEdgesBetween(b, a)` are the same list:
the same edges at the same positions, in the same order. -/
theorem getEdgesBetween_comm (g : Graph) (a b : Node) :
    g.getEdgesBetween a b = g.getEdgesBetween b a := by
  unfold Graph.getEdgesBetween
  apply List.filter_congr
  intro e _
  exact Bool.or_comm _ _

/-- C8: when `hash_value(id)` is already a key of the node table, `addNode`
returns the node stored under that key and the graph is exactly as before. -/
theorem addNode_existing (env : Env) (g : Graph) (id label : String)
    (neighbour : Option Key) (type : node_type) (init : NodeInit) (n : Node)
    (h : StdMap.find g.nodes (env.hash_value id) = some n) :
    g.addNode env id label neighbour type init = some (g, env.hash_value id) ∧
      StdMap.find g.nodes (env.hash_value id) = some n := by
  refine ⟨?_, h⟩
  simp [Graph.addNode, StdMap.insert, h]

theorem addNode_existing_witness :
    demoCycle.addNode demoEnv "A" "another label" (some 66) 3 demoInit =
        some (demoCycle, demoEnv.hash_value "A") ∧
      StdMap.find demoCycle.nodes (demoEnv.hash_value "A") =
        StdMap.find demoCycle.nodes 65 := by
  obtain ⟨n, hn⟩ := StdMap.find_isSome_of_mem demoCycle.nodes (demoEnv.hash_value "A")
    (by decide)
  exact ⟨(addNode_existing demoEnv demoCycle "A" "another label" (some 66) 3 demoInit n hn).1,
    rfl⟩

/-! ## What a pass leaves alone -/

theorem relax_loop_core (descend : NodeMap → Key → Option Key → Int → Option NodeMap)
    (hd : ∀ m n p d m1, descend m n p d = some m1 → core m1 = core m)
    (node : Key) (parent : Option Key) (d : Int) :
    ∀ (L : List Key) (m m1 : NodeMap),
      L.foldlM (relaxNeighbour descend node parent d) m = some m1 → core m1 = core m := by
  intro L
  induction L with
  | nil =>
    intro m m1 h
    simp only [List.foldlM_nil] at h
    cases h; rfl
  | cons w rest ih =>
    intro m m1 h
    rw [List.foldlM_cons] at h
    cases hstep : relaxNeighbour descend node parent d m w with
    | none => rw [hstep] at h; cases h
    | some m2 =>
      rw [hstep] at h
      have h2 : core m2 = core m := by
        unfold relaxNeighbour at hstep
        split at hstep
        · cases hstep
        · split at hstep
          · exact hd _ _ _ _ _ hstep
          · cases hstep; rfl
      exact (ih m2 m1 h).trans h2

theorem recurse_core (env : Env) :
    ∀ (fuel : Nat) (m : NodeMap) (node : Key) (parent : Option Key) (d : Int) (m1 : NodeMap),
      recurseUpdateDistances env fuel m node parent d = some m1 → core m1 = core m := by
  intro fuel
  induction fuel with
  | zero => intro m node parent d m1 h; cases h
  | succ f ih =>
    intro m node parent d m1 h
    have h1 := relax_loop_core (recurseUpdateDistances env f) ih node parent d _ _ _ h
    rw [h1, core_setDistance]

theorem roots_core (env : Env) (fuel : Nat) :
    ∀ (L : List Key) (m m1 : NodeMap),
      L.foldlM (fun acc node => recurseUpdateDistances env fuel acc node none 0) m = some m1 →
      core m1 = core m := by
  intro L
  induction L with
  | nil =>
    intro m m1 h
    simp only [List.foldlM_nil] at h
    cases h; rfl
  | cons w rest ih =>
    intro m m1 h
    rw [List.foldlM_cons] at h
    cases hstep : recurseUpdateDistances env fuel m w none 0 with
    | none => rw [hstep] at h; cases h
    | some m2 =>
      rw [hstep] at h
      exact (ih m2 m1 h).trans (recurse_core env fuel m w none 0 m2 hstep)

/-- Whenever `updateDistances` returns, it has changed nothing but the distance
annotation of the nodes. -/
theorem updateDistances_fields (env : Env) (g g1 : Graph)
    (h : g.updateDistances env = some g1) :
    g1.edges = g.edges ∧ g1.aliases = g.aliases ∧ g1.selectedNodes = g.selectedNodes ∧
      core g1.nodes = core g.nodes := by
  unfold Graph.updateDistances at h
  by_cases he : g.selectedNodes.isEmpty = true
  · simp only [he, if_true, Option.some.injEq] at h
    subst h
    refine ⟨rfl, rfl, rfl, ?_⟩
    simp [core, List.map_map, Function.comp_def, Node.erased]
  · simp only [he, Bool.false_eq_true, if_false, Option.map_eq_some'] at h
    obtain ⟨m, hm, rfl⟩ := h
    refine ⟨rfl, rfl, rfl, ?_⟩
    rw [roots_core env _ _ _ _ hm]
    exact (cleared_facts g.nodes).1

theorem find_of_core {m m1 : NodeMap} (h : core m1 = core m) (k : Key) :
    (StdMap.find m1 k).map Node.erased = (StdMap.find m k).map Node.erased := by
  have e1 := StdMap.find_map m1 k Node.erased
  have e2 := StdMap.find_map m k Node.erased
  unfold core at h
  rw [← e1, ← e2, h]

/-! ## Edges -/

theorem getEdgesBetween_none (g : Graph) (n1 n2 : Node)
    (h : (g.getEdgesBetween n1 n2).length = 0) :
    ∀ e ∈ g.edges, ¬ ((e.id1 = n1.id ∧ e.id2 = n2.id) ∨ (e.id1 = n2.id ∧ e.id2 = n1.id)) := by
  intro e he
  obtain ⟨i, hi⟩ := List.mem_iff_getElem?.1 he
  have hmem : (i, e) ∈ g.edges.enum := List.mk_mem_enum_iff_getElem?.2 hi
  have hnil := List.length_eq_zero.1 h
  unfold Graph.getEdgesBetween at hnil
  have := List.filter_eq_nil_iff.1 hnil (i, e) hmem
  simpa [Node.getID] using this

/-- No two edges of the list join the same unordered pair of ids. -/
theorem unique_append (env : Env) (edges : List Edge) (nf nt : Node) (label : String)
    (hu : edges.Pairwise (fun e1 e2 => ¬ e1.samePair e2))
    (hn : ∀ e ∈ edges,
      ¬ ((e.id1 = nf.id ∧ e.id2 = nt.id) ∨ (e.id1 = nt.id ∧ e.id2 = nf.id))) :
    (edges ++ [Edge.create env nf nt label]).Pairwise (fun e1 e2 => ¬ e1.samePair e2) := by
  rw [List.pairwise_append]
  refine ⟨hu, List.pairwise_singleton _ _, ?_⟩
  intro e he e2 he2
  rw [List.mem_singleton] at he2
  subst he2
  simpa [Edge.samePair, Edge.create, Node.getID] using hn e he

theorem addEdgeRel_unique (env : Env) (g : Graph) (rel : NodeRelation)
    (hu : g.edges.Pairwise (fun e1 e2 => ¬ e1.samePair e2)) :
    (g.addEdgeRel env rel).edges.Pairwise (fun e1 e2 => ¬ e1.samePair e2) := by
  unfold Graph.addEdgeRel
  split
  · rename_i nf nt _ _
    by_cases h1 : rel.from_ = rel.to_
    · simpa [h1] using hu
    · by_cases h2 : (g.getEdgesBetween nf nt).length = 0
      · simp only [h1, h2, if_true, if_false]
        exact unique_append env g.edges nf nt rel.label hu (getEdgesBetween_none g nf nt h2)
      · simpa [h1, h2] using hu
  · exact hu

theorem addEdge_unique (env : Env) (g : Graph) (a b : Key) (type : relation_type)
    (label : String) (hu : g.edges.Pairwise (fun e1 e2 => ¬ e1.samePair e2)) :
    (g.addEdge env a b type label).edges.Pairwise (fun e1 e2 => ¬ e1.samePair e2) := by
  have h1 : (Node.addRelation env g a b type label).edges.Pairwise
      (fun e1 e2 => ¬ e1.samePair e2) := by
    unfold Node.addRelation
    exact addEdgeRel_unique env _ _ hu
  unfold Graph.addEdge
  by_cases hab : a = b
  · simpa [hab] using h1
  · simp only [hab, if_false]
    split
    · rename_i nf nt _ _
      by_cases h2 : ((Node.addRelation env g a b type label).getEdgesBetween nf nt).length = 0
      · simp only [h2, if_true]
        exact unique_append env _ nf nt label h1 (getEdgesBetween_none _ nf nt h2)
      · simpa [h2] using h1
    · exact h1

theorem apply_edges (env : Env) (g g1 : Graph) (op : Op) (h : g.apply env op = some g1) :
    (∃ a b type label, op = Op.addEdge a b type label ∧ g1 = g.addEdge env a b type label) ∨
      g1.edges = g.edges := by
  cases op with
  | addNode id label neighbour type init =>
    right
    simp only [Graph.apply, Graph.addNode, Option.map_eq_some'] at h
    obtain ⟨r, hr, rfl⟩ := h
    by_cases hi : (StdMap.insert g.nodes (env.hash_value id)
        (Node.create env id label type init)).2 = true
    · simp only [hi, Bool.not_true, Bool.false_eq_true, if_false, Option.map_eq_some'] at hr
      obtain ⟨g2, hg2, rfl⟩ := hr
      exact (updateDistances_fields env _ _ hg2).1
    · simp only [hi, Bool.not_false, if_true, Option.some.injEq] at hr
      subst hr; rfl
  | addAlias alias_ id =>
    right
    simp only [Graph.apply, Graph.addAlias] at h
    cases hg : g.getNode env id with
    | error e => simp [hg] at h; subst h; rfl
    | ok p => simp [hg] at h; subst h; rfl
  | addEdge a b type label =>
    left
    simp only [Graph.apply] at h
    split at h
    · simp only [Option.some.injEq] at h
      exact ⟨a, b, type, label, rfl, h.symm⟩
    · cases h
  | select node =>
    right
    simp only [Graph.apply, Graph.select] at h
    split at h
    · cases h
    · split at h
      · simp only [Option.some.injEq] at h; subst h; rfl
      · exact (updateDistances_fields env _ _ h).1
  | deselect node =>
    right
    simp only [Graph.apply, Graph.deselect] at h
    split at h
    · cases h
    · split at h
      · simp only [Option.some.injEq] at h; subst h; rfl
      · exact (updateDistances_fields env _ _ h).1
  | clearSelect =>
    right
    simp only [Graph.apply, Graph.clearSelect] at h
    exact (updateDistances_fields env _ _ h).1

/-- A property of the start that every call keeps holds after every run. -/
theorem run_invariant (env : Env) (P : Graph → Prop)
    (hstep : ∀ g op g1, P g → g.apply env op = some g1 → P g1) :
    ∀ (ops : List Op) (g g1 : Graph), P g → g.run env ops = some g1 → P g1 := by
  intro ops
  induction ops with
  | nil =>
    intro g g1 hp h
    simp only [Graph.run, List.foldlM_nil] at h
    cases h
    exact hp
  | cons op rest ih =>
    intro g g1 hp h
    simp only [Graph.run, List.foldlM_cons] at h
    cases ha : g.apply env op with
    | none => rw [ha] at h; cases h
    | some g2 =>
      rw [ha] at h
      exact ih g2 g1 (hstep g op g2 hp ha) h

theorem samePair_symm {e1 e2 : Edge} (h : e1.samePair e2) : e2.samePair e1 := by
  rcases h with ⟨a, b⟩ | ⟨a, b⟩
  · exact Or.inl ⟨a.symm, b.symm⟩
  · exact Or.inr ⟨b.symm, a.symm⟩

/-- C1: in every graph that a sequence of `addNode`, `addAlias`, `addEdge`,
`select`, `deselect` and `clearSelect` calls builds from the empty graph, no two
edges at different positions of the edge sequence join the same unordered pair
of node ids. -/
theorem edges_unique_of_run (env : Env) (ops : List Op) (g : Graph)
    (h : Graph.empty.run env ops = some g) :
    ∀ (i j : Nat) (e1 e2 : Edge), i ≠ j → g.edges[i]? = some e1 → g.edges[j]? = some e2 →
      ¬ e1.samePair e2 := by
  have hp : g.edges.Pairwise (fun e1 e2 => ¬ e1.samePair e2) := by
    refine run_invariant env (fun g => g.edges.Pairwise (fun e1 e2 => ¬ e1.samePair e2))
      ?_ ops Graph.empty g List.Pairwise.nil h
    intro g0 op g1 hp0 ha
    rcases apply_edges env g0 g1 op ha with ⟨a, b, type, label, _, rfl⟩ | he
    · exact addEdge_unique env g0 a b type label hp0
    · show g1.edges.Pairwise _
      rw [he]; exact hp0
  intro i j e1 e2 hij h1 h2
  obtain ⟨hi, rfl⟩ := List.getElem?_eq_some.1 h1
  obtain ⟨hj, rfl⟩ := List.getElem?_eq_some.1 h2
  rcases Nat.lt_or_gt_of_ne hij with hlt | hgt
  · exact List.pairwise_iff_getElem.1 hp i j hi hj hlt
  · exact fun hs => List.pairwise_iff_getElem.1 hp j i hj hi hgt (samePair_symm hs)

theorem some_getD_of_isSome {α : Type} (o : Option α) (d : α) (h : o.isSome = true) :
    o = some (o.getD d) := by
  cases o with
  | none => cases h
  | some a => rfl

theorem edges_unique_of_run_witness :
    Graph.empty.run demoEnv demoCycleOps = some demoCycle ∧ demoCycle.edges.length = 4 ∧
      ∀ (i j : Nat) (e1 e2 : Edge), i ≠ j → demoCycle.edges[i]? = some e1 →
        demoCycle.edges[j]? = some e2 → ¬ e1.samePair e2 :=
  ⟨some_getD_of_isSome _ _ (by decide), by decide,
    edges_unique_of_run demoEnv demoCycleOps demoCycle
      (some_getD_of_isSome _ _ (by decide))⟩

/-! ## Relations from a node to itself -/

theorem addEdge_self_eq (env : Env) (g : Graph) (a : Key) (type : relation_type)
    (label : String) :
    g.addEdge env a a type label =
      { g with
        nodes := StdMap.modify g.nodes a
          (fun n => { n with relations := n.relations ++ [⟨a, a, type, label⟩] }) } := by
  unfold Graph.addEdge Node.addRelation Graph.addEdgeRel
  simp only [if_true]
  split <;> rfl

/-- C4: `addEdge(a, a, type, label)` leaves the edge sequence as it is, however
many times it is called, and appends the relation from `a` to `a` to the
relation list of `a`. -/
theorem addEdge_self (env : Env) (g : Graph) (a : Key) (type : relation_type)
    (label : String) (nd : Node) (h : StdMap.find g.nodes a = some nd) :
    (g.addEdge env a a type label).edges = g.edges ∧
      StdMap.find (g.addEdge env a a type label).nodes a =
        some { nd with relations := nd.relations ++ [⟨a, a, type, label⟩] } ∧
      ∀ n : Nat, ((fun g0 : Graph => g0.addEdge env a a type label)^[n] g).edges = g.edges := by
  refine ⟨?_, ?_, ?_⟩
  · rw [addEdge_self_eq]
  · rw [addEdge_self_eq]
    simp [StdMap.find_modify, h]
  · intro n
    induction n with
    | zero => rfl
    | succ n ih =>
      rw [Function.iterate_succ_apply', addEdge_self_eq]
      exact ih

theorem addEdge_self_witness :
    (demoCycle.addEdge demoEnv 65 65 (relation_type.KIND 1) "self").edges = demoCycle.edges ∧
      (StdMap.find (demoCycle.addEdge demoEnv 65 65 (relation_type.KIND 1) "self").nodes 65).map
          (fun n => n.relations.map (fun r => (r.from_, r.to_))) =
        some [(65, 66), (65, 65)] ∧
      ((fun g0 : Graph => g0.addEdge demoEnv 65 65 (relation_type.KIND 1) "self")^[3]
          demoCycle).edges = demoCycle.edges := by
  obtain ⟨n, hn⟩ := StdMap.find_isSome_of_mem demoCycle.nodes 65 (by decide)
  obtain ⟨h1, _, h3⟩ := addEdge_self demoEnv demoCycle 65 (relation_type.KIND 1) "self" n hn
  exact ⟨h1, by decide, h3 3⟩

/-! ## Aliases -/

theorem getNode_eq (env : Env) (g : Graph) (id : String) (p : Key) :
    g.getNode env id = Except.ok p ↔ StdMap.find g.aliases (env.hash_value id) = some p := by
  unfold Graph.getNode
  cases StdMap.find g.aliases (env.hash_value id) <;> simp

theorem find_insert {α : Type} (m : List (Key × α)) (k k1 : Key) (v : α) :
    StdMap.find (StdMap.insert m k v).1 k1 =
      match StdMap.find m k with
      | some _ => StdMap.find m k1
      | none => if k1 = k then some v else StdMap.find m k1 := by
  unfold StdMap.insert
  cases h : StdMap.find m k with
  | some w => rfl
  | none => exact StdMap.find_place m k k1 v h

theorem addNode_new (env : Env) (g : Graph) (id label : String)
    (neighbour : Option Key) (type : node_type) (init : NodeInit)
    (hnew : StdMap.find g.nodes (env.hash_value id) = none) :
    g.addNode env id label neighbour type init =
      (Graph.updateDistances env
        { g with
          nodes := StdMap.place g.nodes (env.hash_value id) (Node.create env id label type init)
          aliases := (StdMap.insert g.aliases (env.hash_value id) (env.hash_value id)).1 }).map
        (fun g1 => (g1, env.hash_value id)) := by
  simp [Graph.addNode, StdMap.insert, hnew]

/-- C9, as amended: when `hash_value(id)` is not a key of the node table and
`id` is not registered as an alias of another node, then after a successful
`addNode(id, ...)` the call `getNode(id)` returns the node that `addNode`
returned, and that node is the new one stored under `hash_value(id)`. -/
theorem addNode_resolves (env : Env) (g g1 : Graph) (id label : String)
    (neighbour : Option Key) (type : node_type) (init : NodeInit) (p : Key)
    (hnew : StdMap.find g.nodes (env.hash_value id) = none)
    (hfree : ∀ q, StdMap.find g.aliases (env.hash_value id) = some q → q = env.hash_value id)
    (h : g.addNode env id label neighbour type init = some (g1, p)) :
    g1.getNode env id = Except.ok p ∧ p = env.hash_value id ∧
      g1.getNodeByTagID (env.hash_value id) = some p := by
  rw [addNode_new env g id label neighbour type init hnew, Option.map_eq_some'] at h
  obtain ⟨g2, hg2, he⟩ := h
  simp only [Prod.mk.injEq] at he
  obtain ⟨rfl, rfl⟩ := he
  obtain ⟨_, hal, _, hcore⟩ := updateDistances_fields env _ _ hg2
  simp only at hal hcore
  have hin : env.hash_value id ∈ StdMap.keys g2.nodes := by
    rw [keys_eq_of_core hcore]
    apply StdMap.mem_keys_of_find _ _ (Node.create env id label type init)
    rw [StdMap.find_place _ _ _ _ hnew]
    simp
  refine ⟨?_, rfl, ?_⟩
  · rw [getNode_eq, hal, find_insert]
    cases hf : StdMap.find g.aliases (env.hash_value id) with
    | none => simp
    | some q => simp [hfree q hf]
  · obtain ⟨n, hn⟩ := StdMap.find_isSome_of_mem _ _ hin
    simp [Graph.getNodeByTagID, hn]

theorem addNode_resolves_witness :
    ∃ g1 p, demoAliased.addNode demoEnv "c" "c" none 0 demoInit = some (g1, p) ∧
      g1.getNode demoEnv "c" = Except.ok p ∧ p = 99 ∧ g1.getNodeByTagID 99 = some p :=
  ⟨_, _, some_getD_of_isSome _ (Graph.empty, 0) (by decide),
    addNode_resolves demoEnv demoAliased _ "c" "c" none 0 demoInit _ (by decide)
      (fun q hq => by
        have hn : StdMap.find demoAliased.aliases (demoEnv.hash_value "c") = none := by decide
        rw [hn] at hq; cases hq)
      (some_getD_of_isSome _ (Graph.empty, 0) (by decide))⟩

/-- C9, as stated, fails: `b` is registered as an alias of the node `a`, then
`addNode("b", ...)` inserts a new node under the key of `b` and returns it, but
`getNode("b")` still returns the node `a`. -/
theorem addNode_alias_taken :
    StdMap.find demoAliasFirst.nodes (demoEnv.hash_value "b") = none ∧
      ∃ g1, demoAliasFirst.addNode demoEnv "b" "b" none 0 demoInit = some (g1, 98) ∧
        g1.getNodeByTagID 98 = some 98 ∧
        g1.getNode demoEnv "b" = Except.ok 97 :=
  ⟨by decide, _, some_getD_of_isSome _ (Graph.empty, 98) (by decide), by decide, by rfl⟩

theorem addAlias_eq (env : Env) (g : Graph) (alias_ id : String) (p : Key)
    (hid : g.getNode env id = Except.ok p) :
    g.addAlias env alias_ id =
      Except.ok { g with aliases := (StdMap.insert g.aliases (env.hash_value alias_) p).1 } := by
  simp [Graph.addAlias, hid]

/-- C10, as amended: when `id` resolves and `alias` is not already registered
for a different node, then after `addAlias(alias, id)` the call
`getNode(alias)` returns the same node as `getNode(id)`, which is the node that
`id` resolved to before. -/
theorem addAlias_resolves (env : Env) (g : Graph) (alias_ id : String) (p : Key)
    (hid : g.getNode env id = Except.ok p)
    (hfree : ∀ q, StdMap.find g.aliases (env.hash_value alias_) = some q → q = p) :
    ∃ g1, g.addAlias env alias_ id = Except.ok g1 ∧
      g1.getNode env alias_ = Except.ok p ∧ g1.getNode env id = Except.ok p := by
  refine ⟨_, addAlias_eq env g alias_ id p hid, ?_, ?_⟩
  · rw [getNode_eq]
    simp only
    rw [find_insert]
    cases hf : StdMap.find g.aliases (env.hash_value alias_) with
    | none => simp
    | some q => simp [hfree q hf]
  · have hp := (getNode_eq env g id p).1 hid
    rw [getNode_eq]
    simp only
    rw [find_insert]
    cases hf : StdMap.find g.aliases (env.hash_value alias_) with
    | none =>
      by_cases hk : env.hash_value id = env.hash_value alias_
      · rw [hk, hf] at hp; cases hp
      · simp [hk, hp]
    | some q => simpa using hp

theorem addAlias_resolves_witness :
    ∃ g1, demoAliased.addAlias demoEnv "y" "b" = Except.ok g1 ∧
      g1.getNode demoEnv "y" = Except.ok 98 ∧ g1.getNode demoEnv "b" = Except.ok 98 :=
  addAlias_resolves demoEnv demoAliased "y" "b" 98 (by rfl)
    (fun q hq => by
      have hn : StdMap.find demoAliased.aliases (demoEnv.hash_value "y") = none := by decide
      rw [hn] at hq; cases hq)

/-- C10, as stated, fails: `x` is registered as an alias of the node `a`; after
`addAlias("x", "b")` the call `getNode("x")` still returns the node `a`, while
`getNode("b")` returns the node `b`. -/
theorem addAlias_taken :
    demoAliased.getNode demoEnv "x" = Except.ok 97 ∧
      ∃ g1, demoAliased.addAlias demoEnv "x" "b" = Except.ok g1 ∧
        g1.getNode demoEnv "x" = Except.ok 97 ∧ g1.getNode demoEnv "b" = Except.ok 98 :=
  ⟨by rfl, _, addAlias_eq demoEnv demoAliased "x" "b" 98 (by rfl), by rfl, by rfl⟩

/-! ## Selection and charge -/

theorem RelationsInside_congr {m m1 : NodeMap} (hr : relsOf m1 = relsOf m)
    (hk : StdMap.keys m1 = StdMap.keys m) (h : RelationsInside m) : RelationsInside m1 := by
  intro kv hkv r hr1
  have hmem : (kv.1, kv.2.relations) ∈ relsOf m1 :=
    List.mem_map_of_mem (fun kv : Key × Node => (kv.1, kv.2.relations)) hkv
  rw [hr] at hmem
  simp only [relsOf, List.mem_map, Prod.mk.injEq] at hmem
  obtain ⟨kv0, hkv0, _, h2⟩ := hmem
  rw [hk]
  exact h kv0 hkv0 r (h2 ▸ hr1)

theorem updateDistances_total (env : Env) (hconn : ConnOK env) (g : Graph)
    (hwf : g.WellFormed) :
    ∃ g1, g.updateDistances env = some g1 ∧ g1.WellFormed ∧
      g1.edges = g.edges ∧ g1.aliases = g.aliases ∧ g1.selectedNodes = g.selectedNodes ∧
      core g1.nodes = core g.nodes := by
  have hex : ∃ g1, g.updateDistances env = some g1 := by
    by_cases hne : g.selectedNodes = []
    · exact ⟨_, by simp [Graph.updateDistances, hne]; rfl⟩
    · obtain ⟨m1, e1, _⟩ := updateDistances_pass env hconn g hne hwf.2 hwf.1
      exact ⟨_, e1⟩
  obtain ⟨g1, hg1⟩ := hex
  obtain ⟨he, ha, hs, hc⟩ := updateDistances_fields env g g1 hg1
  refine ⟨g1, hg1, ⟨?_, ?_⟩, he, ha, hs, hc⟩
  · exact RelationsInside_congr (relsOf_eq_of_core hc) (keys_eq_of_core hc) hwf.1
  · intro s hs1
    rw [keys_eq_of_core hc]
    exact hwf.2 s (hs ▸ hs1)

theorem find_after_pass {m m1 : NodeMap} (h : core m1 = core m) (k : Key) (n : Node)
    (hk : StdMap.find m k = some n) :
    ∃ n1, StdMap.find m1 k = some n1 ∧ n1.selected = n.selected ∧ n1.charge = n.charge ∧
      n1.relations = n.relations := by
  have e := find_of_core h k
  rw [hk] at e
  cases h1 : StdMap.find m1 k with
  | none => rw [h1] at e; cases e
  | some n1 =>
    rw [h1] at e
    simp only [Option.map_some', Option.some.injEq] at e
    exact ⟨n1, rfl, show n1.erased.selected = n.erased.selected from congrArg Node.selected e,
      show n1.erased.charge = n.erased.charge from congrArg Node.charge e,
      show n1.erased.relations = n.erased.relations from congrArg Node.relations e⟩

theorem setSelected_facts (n : Node) (b : Bool) :
    (n.setSelected b).selected = b ∧ (n.setSelected b).relations = n.relations ∧
      (n.setSelected b).charge =
        if n.selected = b then n.charge else if b then n.charge * 2 else n.charge / 2 := by
  unfold Node.setSelected
  cases b <;> cases hs : n.selected <;> simp [hs]

theorem wellFormed_modify (g : Graph) (a : Key) (b : Bool) (sel : List Key)
    (hwf : g.WellFormed) (hsel : ∀ s ∈ sel, s ∈ StdMap.keys g.nodes) :
    ({ g with nodes := StdMap.modify g.nodes a (fun n => n.setSelected b)
              selectedNodes := sel } : Graph).WellFormed := by
  constructor
  · refine RelationsInside_congr ?_ (StdMap.keys_modify _ _ _) hwf.1
    exact StdMap.map_modify g.nodes a _ (fun n => n.relations)
      (fun n => (setSelected_facts n b).2.1)
  · intro s hs
    simp only at hs ⊢
    rw [StdMap.keys_modify]
    exact hsel s hs

theorem select_spec (env : Env) (hconn : ConnOK env) (g : Graph) (a : Key) (nd : Node)
    (hwf : g.WellFormed) (ha : StdMap.find g.nodes a = some nd) :
    ∃ g1 n1, g.select env a = some g1 ∧ g1.WellFormed ∧ StdMap.find g1.nodes a = some n1 ∧
      n1.selected = true ∧
      n1.charge = if nd.selected = true then nd.charge else nd.charge * 2 := by
  by_cases hs : nd.selected = true
  · exact ⟨g, nd, by simp [Graph.select, ha, hs], hwf, ha, hs, by simp [hs]⟩
  · have hak : a ∈ StdMap.keys g.nodes := StdMap.mem_keys_of_find _ _ _ ha
    have hwf1 := wellFormed_modify g a true
      (if a ∈ g.selectedNodes then g.selectedNodes else g.selectedNodes ++ [a]) hwf
      (by
        intro s hs1
        by_cases hmem : a ∈ g.selectedNodes
        · rw [if_pos hmem] at hs1; exact hwf.2 s hs1
        · rw [if_neg hmem] at hs1
          rcases List.mem_append.1 hs1 with h | h
          · exact hwf.2 s h
          · rw [List.mem_singleton] at h; exact h ▸ hak)
    obtain ⟨g1, hg1, hwf2, _, _, _, hc⟩ := updateDistances_total env hconn _ hwf1
    have hf : StdMap.find (StdMap.modify g.nodes a (fun n => n.setSelected true)) a =
        some (nd.setSelected true) := by
      rw [StdMap.find_modify]; simp [ha]
    obtain ⟨n1, hn1, h1, h2, _⟩ := find_after_pass hc a _ hf
    obtain ⟨f1, _, f3⟩ := setSelected_facts nd true
    refine ⟨g1, n1, ?_, hwf2, hn1, by rw [h1, f1], ?_⟩
    · simp only [Graph.select, ha, hs, Bool.false_eq_true, if_false]
      exact hg1
    · rw [h2, f3]; simp [hs]

theorem deselect_spec (env : Env) (hconn : ConnOK env) (g : Graph) (a : Key) (nd : Node)
    (hwf : g.WellFormed) (ha : StdMap.find g.nodes a = some nd) :
    ∃ g1 n1, g.deselect env a = some g1 ∧ g1.WellFormed ∧
      StdMap.find g1.nodes a = some n1 ∧ n1.selected = false ∧
      n1.charge = if nd.selected = true then nd.charge / 2 else nd.charge := by
  by_cases hs : nd.selected = true
  · have hwf1 := wellFormed_modify g a false (g.selectedNodes.filter (fun k => k ≠ a)) hwf
      (fun s hs1 => hwf.2 s (List.mem_filter.1 hs1).1)
    obtain ⟨g1, hg1, hwf2, _, _, _, hc⟩ := updateDistances_total env hconn _ hwf1
    have hf : StdMap.find (StdMap.modify g.nodes a (fun n => n.setSelected false)) a =
        some (nd.setSelected false) := by
      rw [StdMap.find_modify]; simp [ha]
    obtain ⟨n1, hn1, h1, h2, _⟩ := find_after_pass hc a _ hf
    obtain ⟨f1, _, f3⟩ := setSelected_facts nd false
    refine ⟨g1, n1, ?_, hwf2, hn1, by rw [h1, f1], ?_⟩
    · simp only [Graph.deselect, ha, hs, Bool.not_true, Bool.false_eq_true, if_false]
      exact hg1
    · rw [h2, f3]; simp [hs]
  · have hs0 : nd.selected = false := by simpa using hs
    exact ⟨g, nd, by simp [Graph.deselect, ha, hs0], hwf, ha, hs0, by simp [hs0]⟩

theorem charge_after_calls (env : Env) (hconn : ConnOK env) (a : Key) :
    ∀ (calls : List Bool) (g : Graph) (nd : Node), g.WellFormed →
      StdMap.find g.nodes a = some nd →
      ∃ g1 n1, g.run env (calls.map (selectCall a)) = some g1 ∧
        StdMap.find g1.nodes a = some n1 ∧
        n1.charge = nd.charge *
          2 ^ (((stateChanging nd.selected calls).1 : Int) - (stateChanging nd.selected calls).2) ∧
        ((stateChanging nd.selected calls).1 : Int) - (stateChanging nd.selected calls).2 =
          flagValue n1.selected - flagValue nd.selected := by
  intro calls
  induction calls with
  | nil =>
    intro g nd _ ha
    exact ⟨g, nd, rfl, ha, by simp [stateChanging], by simp [stateChanging]⟩
  | cons b rest ih =>
    intro g nd hwf ha
    cases b with
    | true =>
      obtain ⟨g1, n1, hg1, hwf1, hn1, hsel1, hch1⟩ := select_spec env hconn g a nd hwf ha
      obtain ⟨g2, n2, hg2, hn2, hch2, hex2⟩ := ih g1 n1 hwf1 hn1
      have hrun : g.run env ((true :: rest).map (selectCall a)) = some g2 := by
        simp only [Graph.run, List.map_cons, List.foldlM_cons, selectCall, if_true, Graph.apply]
        rw [hg1]; exact hg2
      refine ⟨g2, n2, hrun, hn2, ?_, ?_⟩
      · by_cases hs : nd.selected = true
        · rw [hsel1] at hch2
          simp only [hs, if_true] at hch1
          simp only [stateChanging, hs, if_true]
          rw [hch2, hch1]
        · have hs0 : nd.selected = false := by simpa using hs
          rw [hsel1] at hch2
          simp only [hs0, Bool.false_eq_true, if_false] at hch1
          simp only [stateChanging, hs0, Bool.false_eq_true, if_false]
          rw [hch2, hch1]
          push_cast
          rw [show ((stateChanging true rest).1 : Int) + 1 - (stateChanging true rest).2 =
            ((stateChanging true rest).1 : Int) - (stateChanging true rest).2 + 1 by ring,
            zpow_add_one₀ (by norm_num : (2 : ℚ) ≠ 0)]
          ring
      · rw [hsel1] at hex2
        by_cases hs : nd.selected = true
        · simp only [stateChanging, hs, if_true]
          rw [hex2]
        · have hs0 : nd.selected = false := by simpa using hs
          simp only [stateChanging, hs0, Bool.false_eq_true, if_false]
          push_cast
          simp only [flagValue, if_true, Bool.false_eq_true, if_false] at hex2 ⊢
          omega
    | false =>
      obtain ⟨g1, n1, hg1, hwf1, hn1, hsel1, hch1⟩ := deselect_spec env hconn g a nd hwf ha
      obtain ⟨g2, n2, hg2, hn2, hch2, hex2⟩ := ih g1 n1 hwf1 hn1
      have hrun : g.run env ((false :: rest).map (selectCall a)) = some g2 := by
        simp only [Graph.run, List.map_cons, List.foldlM_cons, selectCall, Bool.false_eq_true,
          if_false, Graph.apply]
        rw [hg1]; exact hg2
      refine ⟨g2, n2, hrun, hn2, ?_, ?_⟩
      · by_cases hs : nd.selected = true
        · rw [hsel1] at hch2
          simp only [hs, if_true] at hch1
          simp only [stateChanging, hs, if_true]
          rw [hch2, hch1]
          push_cast
          rw [show ((stateChanging false rest).1 : Int) - ((stateChanging false rest).2 + 1) =
            ((stateChanging false rest).1 : Int) - (stateChanging false rest).2 - 1 by ring,
            zpow_sub_one₀ (by norm_num : (2 : ℚ) ≠ 0)]
          ring
        · have hs0 : nd.selected = false := by simpa using hs
          rw [hsel1] at hch2
          simp only [hs0, Bool.false_eq_true, if_false] at hch1
          simp only [stateChanging, hs0, Bool.false_eq_true, if_false]
          rw [hch2, hch1]
      · rw [hsel1] at hex2
        by_cases hs : nd.selected = true
        · simp only [stateChanging, hs, if_true]
          push_cast
          simp only [flagValue, if_true, Bool.false_eq_true, if_false] at hex2 ⊢
          omega
        · have hs0 : nd.selected = false := by simpa using hs
          simp only [stateChanging, hs0, Bool.false_eq_true, if_false]
          rw [hex2]

/-- C3: on a node with charge `c` that is not selected, every sequence of
`select` and `deselect` calls returns and leaves the charge `c * 2 ^ (s - d)`,
where `s` and `d` count the state-changing `select` and `deselect` calls; so
the charge is `c` or `2 c`. -/
theorem charge_select_deselect (env : Env) (hconn : ConnOK env) (g : Graph)
    (hwf : g.WellFormed) (a : Key) (nd : Node) (ha : StdMap.find g.nodes a = some nd)
    (hns : nd.selected = false) (calls : List Bool) :
    ∃ g1 n1, g.run env (calls.map (selectCall a)) = some g1 ∧
      StdMap.find g1.nodes a = some n1 ∧
      n1.charge = nd.charge *
        2 ^ (((stateChanging false calls).1 : Int) - (stateChanging false calls).2) ∧
      (n1.charge = nd.charge ∨ n1.charge = nd.charge * 2) := by
  obtain ⟨g1, n1, hrun, hn1, hch, hex⟩ := charge_after_calls env hconn a calls g nd hwf ha
  rw [hns] at hch hex
  refine ⟨g1, n1, hrun, hn1, hch, ?_⟩
  rw [hch, hex]
  cases n1.selected <;> simp [flagValue]

theorem charge_select_deselect_witness :
    demoChargeAfter [true] = some 20 ∧ demoChargeAfter [true, true] = some 20 ∧
      demoChargeAfter [true, true, false] = some 10 ∧
      demoChargeAfter [true, true, false, false] = some 10 := by
  obtain ⟨nd, hnd⟩ := StdMap.find_isSome_of_mem demoPair.nodes 65 (by decide)
  have hc : (StdMap.find demoPair.nodes 65).map Node.charge = some 10 := by rfl
  have hs : (StdMap.find demoPair.nodes 65).map Node.selected = some false := by decide
  rw [hnd] at hc hs
  simp only [Option.map_some', Option.some.injEq] at hc hs
  have key : ∀ calls : List Bool, demoChargeAfter calls =
      some (10 * 2 ^ (((stateChanging false calls).1 : Int) - (stateChanging false calls).2)) := by
    intro calls
    obtain ⟨g1, n1, hrun, hn1, hch, _⟩ :=
      charge_select_deselect demoEnv connOK_demoEnv demoPair (by decide) 65 nd hnd hs calls
    unfold demoChargeAfter
    rw [hrun, Option.some_bind, hn1, Option.map_some', hch, hc]
  refine ⟨?_, ?_, ?_, ?_⟩ <;> rw [key] <;> norm_num [stateChanging]

/-! ## Paths -/

theorem find_of_updOf {m : NodeMap} {v : Key} (h : updOf m v = true) :
    ∃ n, StdMap.find m v = some n ∧ n.distance_to_selected = distOf m v := by
  unfold updOf at h
  unfold distOf
  cases hf : StdMap.find m v with
  | none => rw [hf] at h; cases h
  | some n => exact ⟨n, rfl, rfl⟩

/-- C6: in a graph whose nodes are `v0, ..., v(n-1)` with `n >= 1`, where two
nodes are linked by a relation exactly when they are consecutive, and where
exactly `v0` is selected, `updateDistances` returns and gives `vi` the distance
`i`, whatever the distances were before. -/
theorem updateDistances_path (env : Env) (hconn : ConnOK env) (g : Graph) (vs : List Key)
    (hnd : vs.Nodup) (hpos : 0 < vs.length)
    (hkeys1 : ∀ v ∈ StdMap.keys g.nodes, v ∈ vs) (hkeys2 : ∀ v ∈ vs, v ∈ StdMap.keys g.nodes)
    (hin : RelationsInside g.nodes)
    (hlink : ∀ i, i < vs.length → ∀ j, j < vs.length →
      (Linked g.nodes (vs.getD i 0) (vs.getD j 0) ↔ (i + 1 = j ∨ j + 1 = i)))
    (hsel : g.selectedNodes = [vs.getD 0 0]) :
    ∃ g1, g.updateDistances env = some g1 ∧
      ∀ i, i < vs.length →
        ∃ n, StdMap.find g1.nodes (vs.getD i 0) = some n ∧ n.distance_to_selected = (i : Int) := by
  have hget : ∀ i (hi : i < vs.length), vs.getD i 0 = vs[i] :=
    fun i hi => List.getD_eq_getElem vs 0 hi
  have hmem : ∀ i, i < vs.length → vs.getD i 0 ∈ vs := by
    intro i hi; rw [hget i hi]; exact List.getElem_mem hi
  have hne : g.selectedNodes ≠ [] := by rw [hsel]; simp
  have hselk : ∀ s ∈ g.selectedNodes, s ∈ StdMap.keys g.nodes := by
    intro s hs
    rw [hsel, List.mem_singleton] at hs
    exact hs ▸ hkeys2 _ (hmem 0 hpos)
  have fwd : ∀ i, i < vs.length → Hops g.nodes g.selectedNodes i (vs.getD i 0) := by
    intro i
    induction i with
    | zero => intro _; exact Hops.start (by rw [hsel]; simp)
    | succ i ih =>
      intro hi
      have hi0 : i < vs.length := Nat.lt_of_succ_lt hi
      exact Hops.hop (ih hi0) ((hlink i hi0 (i + 1) hi).2 (Or.inl rfl))
  have back : ∀ (k : Nat) (v : Key), Hops g.nodes g.selectedNodes k v →
      ∃ i, i < vs.length ∧ v = vs.getD i 0 ∧ i ≤ k := by
    intro k v h
    induction h with
    | start hs =>
      rw [hsel, List.mem_singleton] at hs
      exact ⟨0, hpos, hs, le_refl _⟩
    | hop _ hl ih =>
      rename_i k0 u w _
      obtain ⟨i, hi, hu, hik⟩ := ih
      have hw : w ∈ vs := hkeys1 w (Linked_mem_keys hin hl)
      obtain ⟨j, hj, hjw⟩ := List.mem_iff_getElem.1 hw
      have hjw2 : w = vs.getD j 0 := by rw [hget j hj]; exact hjw.symm
      rw [hu, hjw2] at hl
      have := (hlink i hi j hj).1 hl
      exact ⟨j, hj, hjw2, by omega⟩
  obtain ⟨m1, e1, _, hub, hwalk, _⟩ := updateDistances_pass env hconn g hne hselk hin
  refine ⟨{ g with nodes := m1 }, e1, ?_⟩
  intro i hi
  obtain ⟨hu, hle⟩ := hub i _ (fwd i hi)
  obtain ⟨j, hj, hjw⟩ := hwalk _ hu
  obtain ⟨i2, hi2, he, hij⟩ := back j _ hjw
  have hii : i = i2 := by
    rw [hget i hi, hget i2 hi2] at he
    exact (List.Nodup.getElem_inj_iff hnd).1 he
  subst hii
  have hji : j = i := by
    rw [hj] at hle
    have := Int.ofNat_le.1 hle
    omega
  subst hji
  obtain ⟨n, hn, hd⟩ := find_of_updOf hu
  exact ⟨n, hn, by rw [hd, hj]⟩

theorem updateDistances_path_witness :
    ∃ g1, demoPath.updateDistances demoEnv = some g1 ∧
      ∀ i, i < [(65 : Key), 66, 67, 68].length →
        ∃ n, StdMap.find g1.nodes ([(65 : Key), 66, 67, 68].getD i 0) = some n ∧
          n.distance_to_selected = (i : Int) :=
  updateDistances_path demoEnv connOK_demoEnv demoPath [65, 66, 67, 68] (by decide) (by decide)
    (by decide) (by decide) (by decide) (by decide) (by decide)

/-! ## Lookups -/

/-- C11: `getNode(id)` and `addAlias(alias, id)` throw exactly when
`hash_value(id)` is not a key of the alias map, and then with the message
`Node <id> not found`; a call of `addAlias` that throws leaves the graph as it
was. -/
theorem notFound_iff (env : Env) (g : Graph) (alias_ id : String) :
    ((∃ e, g.getNode env id = Except.error e) ↔
        StdMap.find g.aliases (env.hash_value id) = none) ∧
      ((∃ e, g.addAlias env alias_ id = Except.error e) ↔
        StdMap.find g.aliases (env.hash_value id) = none) ∧
      (StdMap.find g.aliases (env.hash_value id) = none →
        g.getNode env id = Except.error ("Node " ++ id ++ " not found") ∧
        g.addAlias env alias_ id = Except.error ("Node " ++ id ++ " not found") ∧
        g.apply env (Op.addAlias alias_ id) = some g) := by
  refine ⟨?_, ?_, ?_⟩
  · unfold Graph.getNode
    cases StdMap.find g.aliases (env.hash_value id) <;> simp
  · unfold Graph.addAlias Graph.getNode
    cases StdMap.find g.aliases (env.hash_value id) <;> simp
  · intro h
    refine ⟨?_, ?_, ?_⟩
    · simp [Graph.getNode, h]
    · simp [Graph.addAlias, Graph.getNode, h]
    · simp [Graph.apply, Graph.addAlias, Graph.getNode, h]

/-- C12, as amended: `getNodeByTagID(key)` resolves through the node table: it
returns the node stored under that key, and `NULL` exactly when the node table
has no such key. -/
theorem getNodeByTagID_spec (g : Graph) (key : Key) :
    (∀ n, StdMap.find g.nodes key = some n → g.getNodeByTagID key = some key) ∧
      (g.getNodeByTagID key = none ↔ StdMap.find g.nodes key = none) := by
  unfold Graph.getNodeByTagID
  cases StdMap.find g.nodes key <;> simp

/-- C12, as stated, fails: `x` is registered as an alias of the node `a`, so
the alias map has the key of `x`, but `getNodeByTagID` returns `NULL` for that
key instead of the node `a`. -/
theorem getNodeByTagID_alias_only :
    StdMap.find demoAliased.aliases (demoEnv.hash_value "x") = some 97 ∧
      demoAliased.getNode demoEnv "x" = Except.ok 97 ∧
      demoAliased.getNodeByTagID (demoEnv.hash_value "x") = none :=
  ⟨by decide, by rfl, by decide⟩

theorem notFound_iff_witness :
    demoAliased.getNode demoEnv "z" = Except.error "Node z not found" ∧
      demoAliased.addAlias demoEnv "y" "z" = Except.error "Node z not found" ∧
      demoAliased.apply demoEnv (Op.addAlias "y" "z") = some demoAliased :=
  (notFound_iff demoEnv demoAliased "y" "z").2.2 (by decide)

theorem getNodeByTagID_spec_witness :
    demoAliased.getNodeByTagID 97 = some 97 ∧
      (demoAliased.getNodeByTagID 120 = none ↔ StdMap.find demoAliased.nodes 120 = none) := by
  obtain ⟨n, hn⟩ := StdMap.find_isSome_of_mem demoAliased.nodes 97 (by decide)
  exact ⟨(getNodeByTagID_spec demoAliased 97).1 n hn, (getNodeByTagID_spec demoAliased 120).2⟩

/-! ## Nodes out of reach -/

/-- C17: with a non-empty selection, `updateDistances` returns and every node
that no walk over the undirected relation adjacency reaches from a selected
node keeps the value of `distance_to_selected` it had before. -/
theorem updateDistances_unreachable (env : Env) (hconn : ConnOK env) (g : Graph)
    (hne : g.selectedNodes ≠ []) (hsel : ∀ s ∈ g.selectedNodes, s ∈ StdMap.keys g.nodes)
    (hin : RelationsInside g.nodes) :
    ∃ g1, g.updateDistances env = some g1 ∧
      ∀ (v : Key) (n : Node), StdMap.find g.nodes v = some n →
        (∀ k, ¬ Hops g.nodes g.selectedNodes k v) →
        ∃ n1, StdMap.find g1.nodes v = some n1 ∧
          n1.distance_to_selected = n.distance_to_selected := by
  obtain ⟨m1, e1, hcore, _, hwalk, hkeep⟩ := updateDistances_pass env hconn g hne hsel hin
  refine ⟨{ g with nodes := m1 }, e1, ?_⟩
  intro v n hv hun
  have hu : updOf m1 v = false := by
    cases h : updOf m1 v with
    | false => rfl
    | true =>
      obtain ⟨j, _, hj⟩ := hwalk v h
      exact absurd hj (hun j)
  obtain ⟨n1, hn1, _⟩ := find_after_pass hcore v n hv
  have hd := hkeep v hu
  unfold distOf at hd
  rw [hn1, hv] at hd
  exact ⟨n1, hn1, hd⟩

theorem updateDistances_unreachable_witness :
    ∃ g1, demoApart.updateDistances demoEnv = some g1 ∧
      ∃ n1, StdMap.find g1.nodes 69 = some n1 ∧ n1.distance_to_selected = 7 := by
  obtain ⟨g1, h1, h2⟩ := updateDistances_unreachable demoEnv connOK_demoEnv demoApart
    (by decide) (by decide) (by decide)
  obtain ⟨n, hn⟩ := StdMap.find_isSome_of_mem demoApart.nodes 69 (by decide)
  have hd : (StdMap.find demoApart.nodes 69).map Node.distance_to_selected = some 7 := by
    decide
  rw [hn] at hd
  simp only [Option.map_some', Option.some.injEq] at hd
  have hsel : demoApart.selectedNodes = [65] := by decide
  have hrel : ∀ kv ∈ demoApart.nodes, kv.2.relations = [] := by decide
  have hlink : ∀ a b, ¬ Linked demoApart.nodes a b := by
    intro a b h
    rcases h with ⟨kv, hkv, _, r, hr, _⟩ | ⟨kv, hkv, _, r, hr, _⟩
    · rw [hrel kv hkv] at hr; cases hr
    · rw [hrel kv hkv] at hr; cases hr
  have hreach : ∀ k v, Hops demoApart.nodes demoApart.selectedNodes k v → v = 65 := by
    intro k v h
    induction h with
    | start hs => rw [hsel] at hs; simpa using hs
    | hop _ hl _ => exact absurd hl (hlink _ _)
  obtain ⟨n1, hn1, hd1⟩ := h2 69 n hn (fun k h => absurd (hreach k 69 h) (by decide))
  exact ⟨g1, h1, n1, hn1, hd1.trans hd⟩

/-! ## The selection invariant -/

theorem updateDistances_nil (env : Env) (g g1 : Graph) (hs : g.selectedNodes = [])
    (h : g.updateDistances env = some g1) :
    ∀ kv ∈ g1.nodes, kv.2.distance_to_selected = -1 := by
  unfold Graph.updateDistances at h
  simp only [hs, List.isEmpty_nil, if_true, Option.some.injEq] at h
  subst h
  intro kv hkv
  simp only [List.mem_map] at hkv
  obtain ⟨kv0, _, rfl⟩ := hkv
  rfl

theorem StdMap.mem_modify {α : Type} (m : List (Key × α)) (k : Key) (f : α → α)
    (kv : Key × α) (h : kv ∈ StdMap.modify m k f) :
    kv ∈ m ∨ ∃ v, (k, v) ∈ m ∧ kv = (k, f v) := by
  induction m with
  | nil => simp [StdMap.modify] at h
  | cons hd t ih =>
    obtain ⟨k0, v0⟩ := hd
    by_cases hk : k0 = k
    · subst hk
      simp only [StdMap.modify, if_true, List.mem_cons] at h
      rcases h with h | h
      · exact Or.inr ⟨v0, List.mem_cons_self _ _, h⟩
      · exact Or.inl (List.mem_cons_of_mem _ h)
    · simp only [StdMap.modify, hk, if_false, List.mem_cons] at h
      rcases h with h | h
      · exact Or.inl (h ▸ List.mem_cons_self _ _)
      · rcases ih h with h1 | ⟨v, hv, he⟩
        · exact Or.inl (List.mem_cons_of_mem _ h1)
        · exact Or.inr ⟨v, List.mem_cons_of_mem _ hv, he⟩

theorem selectionOK_after_update (env : Env) (g g1 : Graph)
    (h : g.updateDistances env = some g1) (hf : g.FlagsOK) : g1.SelectionOK := by
  obtain ⟨_, _, hsel, hc⟩ := updateDistances_fields env g g1 h
  refine ⟨⟨?_, ?_⟩, ?_⟩
  · intro s hs
    rw [hsel] at hs
    obtain ⟨nd, hnd, hflag⟩ := hf.selected_flag s hs
    obtain ⟨n1, hn1, h1, _⟩ := find_after_pass hc s nd hnd
    exact ⟨n1, hn1, h1.trans hflag⟩
  · intro k n1 hn1 hflag
    obtain ⟨n, hn, h1, _⟩ := find_after_pass hc.symm k n1 hn1
    rw [hsel]
    exact hf.flag_selected k n hn (h1.trans hflag)
  · intro hs
    rw [hsel] at hs
    exact updateDistances_nil env g g1 hs h

theorem selectionOK_modify (g : Graph) (a : Key) (f : Node → Node) (edges : List Edge)
    (hf : ∀ n, (f n).selected = n.selected ∧
      (f n).distance_to_selected = n.distance_to_selected)
    (h : g.SelectionOK) :
    ({ g with nodes := StdMap.modify g.nodes a f, edges := edges } : Graph).SelectionOK := by
  obtain ⟨⟨h1, h2⟩, h3⟩ := h
  refine ⟨⟨?_, ?_⟩, ?_⟩
  · intro s hs
    obtain ⟨nd, hnd, hflag⟩ := h1 s hs
    simp only [StdMap.find_modify]
    by_cases hsa : s = a
    · subst hsa
      exact ⟨f nd, by simp [hnd], (hf nd).1.trans hflag⟩
    · exact ⟨nd, by simp [hsa, hnd], hflag⟩
  · intro k n1 hn1 hflag
    simp only [StdMap.find_modify] at hn1
    by_cases hka : k = a
    · subst hka
      simp only [if_true, Option.map_eq_some'] at hn1
      obtain ⟨n, hn, rfl⟩ := hn1
      exact h2 k n hn ((hf n).1.symm.trans hflag)
    · simp only [hka, if_false] at hn1
      exact h2 k n1 hn1 hflag
  · intro hs kv hkv
    rcases StdMap.mem_modify g.nodes a f kv hkv with hm | ⟨v, hv, rfl⟩
    · exact h3 hs kv hm
    · exact (hf v).2.trans (h3 hs (a, v) hv)

theorem addEdgeRel_nodes (env : Env) (g : Graph) (rel : NodeRelation) :
    (g.addEdgeRel env rel).nodes = g.nodes ∧
      (g.addEdgeRel env rel).selectedNodes = g.selectedNodes ∧
      (g.addEdgeRel env rel).aliases = g.aliases := by
  unfold Graph.addEdgeRel
  split
  · split
    · exact ⟨rfl, rfl, rfl⟩
    · split <;> exact ⟨rfl, rfl, rfl⟩
  · exact ⟨rfl, rfl, rfl⟩

theorem addEdge_nodes (env : Env) (g : Graph) (a b : Key) (type : relation_type)
    (label : String) :
    (g.addEdge env a b type label).nodes =
        StdMap.modify g.nodes a
          (fun n => { n with relations := n.relations ++ [⟨a, b, type, label⟩] }) ∧
      (g.addEdge env a b type label).selectedNodes = g.selectedNodes ∧
      (g.addEdge env a b type label).aliases = g.aliases := by
  have h1 : (Node.addRelation env g a b type label).nodes =
        StdMap.modify g.nodes a
          (fun n => { n with relations := n.relations ++ [⟨a, b, type, label⟩] }) ∧
      (Node.addRelation env g a b type label).selectedNodes = g.selectedNodes ∧
      (Node.addRelation env g a b type label).aliases = g.aliases := by
    unfold Node.addRelation
    exact addEdgeRel_nodes env _ _
  unfold Graph.addEdge
  simp only
  split
  · exact h1
  · split
    · split <;> exact h1
    · exact h1

theorem clear_flags (L : List Key) :
    ∀ (m : NodeMap) (x : Key) (n1 : Node),
      StdMap.find (L.foldl (fun m node => StdMap.modify m node
        (fun n => n.setSelected false)) m) x = some n1 →
      n1.selected = true →
      ∃ n, StdMap.find m x = some n ∧ n.selected = true ∧ x ∉ L := by
  induction L with
  | nil =>
    intro m x n1 h hflag
    exact ⟨n1, h, hflag, by simp⟩
  | cons a rest ih =>
    intro m x n1 h hflag
    simp only [List.foldl_cons] at h
    obtain ⟨n0, hn0, hf0, hx⟩ := ih _ x n1 h hflag
    rw [StdMap.find_modify] at hn0
    by_cases hxa : x = a
    · subst hxa
      simp only [if_true, Option.map_eq_some'] at hn0
      obtain ⟨n, _, rfl⟩ := hn0
      rw [(setSelected_facts n false).1] at hf0
      cases hf0
    · simp only [hxa, if_false] at hn0
      exact ⟨n0, hn0, hf0, by simp [hxa, hx]⟩

theorem selectionOK_congr (g g1 : Graph) (hn : g1.nodes = g.nodes)
    (hs : g1.selectedNodes = g.selectedNodes) (h : g.SelectionOK) : g1.SelectionOK := by
  obtain ⟨⟨h1, h2⟩, h3⟩ := h
  refine ⟨⟨?_, ?_⟩, ?_⟩
  · rw [hn, hs]; exact h1
  · rw [hn, hs]; exact h2
  · rw [hn, hs]; exact h3

theorem addNode_selectionOK (env : Env) (g g1 : Graph) (id label : String)
    (neighbour : Option Key) (type : node_type) (init : NodeInit) (p : Key)
    (h : g.addNode env id label neighbour type init = some (g1, p))
    (hg : g.SelectionOK) : g1.SelectionOK := by
  cases hfind : StdMap.find g.nodes (env.hash_value id) with
  | some n =>
    have := (show g.addNode env id label neighbour type init = some (g, env.hash_value id) by
      simp [Graph.addNode, StdMap.insert, hfind])
    rw [this] at h
    simp only [Option.some.injEq, Prod.mk.injEq] at h
    rw [← h.1]; exact hg
  | none =>
    rw [addNode_new env g id label neighbour type init hfind, Option.map_eq_some'] at h
    obtain ⟨g2, hg2, he⟩ := h
    simp only [Prod.mk.injEq] at he
    obtain ⟨rfl, _⟩ := he
    apply selectionOK_after_update env _ _ hg2
    obtain ⟨⟨h1, h2⟩, _⟩ := hg
    constructor
    · intro s hs
      obtain ⟨nd, hnd, hflag⟩ := h1 s hs
      have hne : s ≠ env.hash_value id := by
        intro e; rw [e, hfind] at hnd; cases hnd
      exact ⟨nd, by simp only; rw [StdMap.find_place _ _ _ _ hfind]; simp [hne, hnd], hflag⟩
    · intro k n1 hn1 hflag
      simp only at hn1
      rw [StdMap.find_place _ _ _ _ hfind] at hn1
      by_cases hk : k = env.hash_value id
      · simp only [hk, if_true, Option.some.injEq] at hn1
        rw [← hn1] at hflag
        simp [Node.create] at hflag
      · simp only [hk, if_false] at hn1
        exact h2 k n1 hn1 hflag

theorem select_selectionOK (env : Env) (g g1 : Graph) (k : Key)
    (h : g.select env k = some g1) (hg : g.SelectionOK) : g1.SelectionOK := by
  unfold Graph.select at h
  cases hfind : StdMap.find g.nodes k with
  | none => rw [hfind] at h; cases h
  | some nd =>
    rw [hfind] at h
    simp only at h
    by_cases hs : nd.selected = true
    · simp only [hs, if_true, Option.some.injEq] at h
      rw [← h]; exact hg
    · simp only [hs, Bool.false_eq_true, if_false] at h
      apply selectionOK_after_update env _ _ h
      obtain ⟨⟨h1, h2⟩, _⟩ := hg
      have hmem : ∀ s, s ∈ (if k ∈ g.selectedNodes then g.selectedNodes
          else g.selectedNodes ++ [k]) ↔ s ∈ g.selectedNodes ∨ s = k := by
        intro s
        by_cases hk : k ∈ g.selectedNodes
        · rw [if_pos hk]
          constructor
          · exact Or.inl
          · rintro (h | h)
            · exact h
            · exact h ▸ hk
        · rw [if_neg hk]; simp
      constructor
      · intro s hs1
        simp only at hs1 ⊢
        rw [StdMap.find_modify]
        by_cases hsk : s = k
        · subst hsk
          exact ⟨nd.setSelected true, by simp [hfind], (setSelected_facts nd true).1⟩
        · rcases (hmem s).1 hs1 with hs2 | hs2
          · obtain ⟨n, hn, hflag⟩ := h1 s hs2
            exact ⟨n, by simp [hsk, hn], hflag⟩
          · exact absurd hs2 hsk
      · intro x n1 hn1 hflag
        simp only at hn1 ⊢
        rw [StdMap.find_modify] at hn1
        rw [hmem]
        by_cases hxk : x = k
        · exact Or.inr hxk
        · simp only [hxk, if_false] at hn1
          exact Or.inl (h2 x n1 hn1 hflag)

theorem deselect_selectionOK (env : Env) (g g1 : Graph) (k : Key)
    (h : g.deselect env k = some g1) (hg : g.SelectionOK) : g1.SelectionOK := by
  unfold Graph.deselect at h
  cases hfind : StdMap.find g.nodes k with
  | none => rw [hfind] at h; cases h
  | some nd =>
    rw [hfind] at h
    simp only at h
    by_cases hs : nd.selected = true
    · simp only [hs, Bool.not_true, Bool.false_eq_true, if_false] at h
      apply selectionOK_after_update env _ _ h
      obtain ⟨⟨h1, h2⟩, _⟩ := hg
      constructor
      · intro s hs1
        simp only at hs1 ⊢
        obtain ⟨hs2, hsk⟩ := List.mem_filter.1 hs1
        have hsk1 : s ≠ k := by simpa using hsk
        obtain ⟨n, hn, hflag⟩ := h1 s hs2
        rw [StdMap.find_modify]
        exact ⟨n, by simp [hsk1, hn], hflag⟩
      · intro x n1 hn1 hflag
        simp only at hn1 ⊢
        rw [StdMap.find_modify] at hn1
        by_cases hxk : x = k
        · subst hxk
          simp only [if_true, hfind, Option.map_some', Option.some.injEq] at hn1
          rw [← hn1, (setSelected_facts nd false).1] at hflag
          cases hflag
        · simp only [hxk, if_false] at hn1
          exact List.mem_filter.2 ⟨h2 x n1 hn1 hflag, by simpa using hxk⟩
    · have hs0 : nd.selected = false := by simpa using hs
      simp only [hs0, Bool.not_false, if_true, Option.some.injEq] at h
      rw [← h]; exact hg

theorem clearSelect_selectionOK (env : Env) (g g1 : Graph)
    (h : g.clearSelect env = some g1) (hg : g.SelectionOK) : g1.SelectionOK := by
  unfold Graph.clearSelect at h
  apply selectionOK_after_update env _ _ h
  obtain ⟨⟨_, h2⟩, _⟩ := hg
  constructor
  · intro s hs; cases hs
  · intro x n1 hn1 hflag
    obtain ⟨n, hn, hf, hx⟩ := clear_flags g.selectedNodes g.nodes x n1 hn1 hflag
    exact absurd (h2 x n hn hf) hx

theorem apply_selectionOK (env : Env) (g : Graph) (op : Op) (g1 : Graph)
    (hg : g.SelectionOK) (h : g.apply env op = some g1) : g1.SelectionOK := by
  cases op with
  | addNode id label neighbour type init =>
    simp only [Graph.apply, Option.map_eq_some'] at h
    obtain ⟨r, hr, rfl⟩ := h
    exact addNode_selectionOK env g r.1 id label neighbour type init r.2 hr hg
  | addAlias alias_ id =>
    simp only [Graph.apply, Graph.addAlias] at h
    cases hgn : g.getNode env id with
    | error e => simp [hgn] at h; rw [← h]; exact hg
    | ok p =>
      simp [hgn] at h
      rw [← h]
      exact selectionOK_congr g _ rfl rfl hg
  | addEdge a b type label =>
    simp only [Graph.apply] at h
    split at h
    · simp only [Option.some.injEq] at h
      obtain ⟨hn, hs, _⟩ := addEdge_nodes env g a b type label
      rw [← h]
      exact selectionOK_congr
        ({ g with
            nodes := StdMap.modify g.nodes a
              (fun n => { n with relations := n.relations ++ [⟨a, b, type, label⟩] })
            edges := g.edges } : Graph) _ hn hs
        (selectionOK_modify g a _ g.edges (fun n => ⟨rfl, rfl⟩) hg)
    · cases h
  | select node => exact select_selectionOK env g g1 node h hg
  | deselect node => exact deselect_selectionOK env g g1 node h hg
  | clearSelect => exact clearSelect_selectionOK env g g1 h hg

theorem selectionOK_empty : Graph.empty.SelectionOK :=
  ⟨⟨fun s hs => (by cases hs), fun k nd h _ => (by simp [Graph.empty, StdMap.find] at h)⟩,
    fun _ kv hkv => (by cases hkv)⟩

theorem selectionOK_of_run (env : Env) (ops : List Op) (g : Graph)
    (h : Graph.empty.run env ops = some g) : g.SelectionOK :=
  run_invariant env Graph.SelectionOK (fun g0 op g1 hp ha => apply_selectionOK env g0 op g1 hp ha)
    ops Graph.empty g selectionOK_empty h

/-- C16: in every graph that a sequence of `addNode`, `addAlias`, `addEdge`,
`select`, `deselect` and `clearSelect` calls builds from the empty graph, if
the selection set is empty then every node of the node table has
`distance_to_selected = -1`. -/
theorem distance_unset_of_run (env : Env) (ops : List Op) (g : Graph)
    (h : Graph.empty.run env ops = some g) (hs : g.selectedNodes = []) :
    ∀ kv ∈ g.nodes, kv.2.distance_to_selected = -1 :=
  (selectionOK_of_run env ops g h).2 hs

theorem distance_unset_of_run_witness :
    Graph.empty.run demoEnv demoDeselectedOps = some demoDeselected ∧
      demoDeselected.selectedNodes = [] ∧ StdMap.keys demoDeselected.nodes = [65, 66, 67] ∧
      ∀ kv ∈ demoDeselected.nodes, kv.2.distance_to_selected = -1 :=
  ⟨some_getD_of_isSome _ _ (by decide), by decide, by decide,
    distance_unset_of_run demoEnv demoDeselectedOps demoDeselected
      (some_getD_of_isSome _ _ (by decide)) (by decide)⟩

/-- C19: in every graph that a sequence of `addNode`, `addAlias`, `addEdge`,
`select`, `deselect` and `clearSelect` calls builds from the empty graph, a
node of the node table is a member of the selection set exactly when its flag
`selected` is set. -/
theorem selection_consistent_of_run (env : Env) (ops : List Op) (g : Graph)
    (h : Graph.empty.run env ops = some g) :
    ∀ (k : Key) (nd : Node), StdMap.find g.nodes k = some nd →
      (k ∈ g.selectedNodes ↔ nd.selected = true) := by
  obtain ⟨⟨h1, h2⟩, _⟩ := selectionOK_of_run env ops g h
  intro k nd hk
  constructor
  · intro hmem
    obtain ⟨n, hn, hflag⟩ := h1 k hmem
    rw [hk] at hn
    cases hn
    exact hflag
  · exact h2 k nd hk

theorem selection_consistent_of_run_witness :
    Graph.empty.run demoEnv demoCycleOps = some demoCycle ∧
      demoCycle.selectedNodes = [65, 67] ∧
      ∀ (k : Key) (nd : Node), StdMap.find demoCycle.nodes k = some nd →
        (k ∈ demoCycle.selectedNodes ↔ nd.selected = true) :=
  ⟨some_getD_of_isSome _ _ (by decide), by decide,
    selection_consistent_of_run demoEnv demoCycleOps demoCycle
      (some_getD_of_isSome _ _ (by decide))⟩

/-! ## The call stack -/

theorem entry_facts (m0 : NodeMap) (sel : List Key) (m : NodeMap) (v : Key) (k : Nat)
    (S : List Key) (hv : Hops m0 sel k v) (hp : PassInv m0 sel m)
    (hvk : v ∈ StdMap.keys m0) (hvS : v ∉ S) (hs : StackOK m S (k : Int))
    (hpre : updOf m v = true → (k : Int) ≤ distOf m v) (hr : RelaxedExcept m0 m S) :
    PassInv m0 sel (setDistance m v k) ∧
      StackOK (setDistance m v k) (v :: S) ((k : Int) + 1) ∧
      RelaxedExcept m0 (setDistance m v k) (v :: S) := by
  have hvk1 : v ∈ StdMap.keys m := by rw [keys_eq_of_core hp.core_eq]; exact hvk
  have hset_u : updOf (setDistance m v k) v = true := updOf_setDistance_self m v k hvk1
  have hset_d : distOf (setDistance m v k) v = k := distOf_setDistance_self m v k hvk1
  have hcore : core (setDistance m v k) = core m0 := by
    rw [core_setDistance]; exact hp.core_eq
  refine ⟨⟨hcore, ?_⟩, ?_, ?_⟩
  · intro u hu
    by_cases huv : u = v
    · subst huv; exact ⟨k, hset_d, hv⟩
    · rw [updOf_setDistance_ne m v u k huv] at hu
      rw [distOf_setDistance_ne m v u k huv]
      exact hp.walk u hu
  · intro u hu
    rcases List.mem_cons.1 hu with h | h
    · subst h; exact ⟨hset_u, by rw [hset_d]; omega⟩
    · have huv : u ≠ v := fun e => hvS (e ▸ h)
      rw [updOf_setDistance_ne m v u k huv, distOf_setDistance_ne m v u k huv]
      obtain ⟨a, b⟩ := hs u h
      exact ⟨a, by omega⟩
  · intro u hu huS w hw
    have huv : u ≠ v := fun e => huS (e ▸ List.mem_cons_self _ _)
    have huS1 : u ∉ S := fun h => huS (List.mem_cons_of_mem _ h)
    rw [updOf_setDistance_ne m v u k huv] at hu
    rw [distOf_setDistance_ne m v u k huv]
    obtain ⟨a, b⟩ := hr u hu huS1 w hw
    by_cases hwv : w = v
    · subst hwv
      exact ⟨hset_u, by rw [hset_d]; exact le_trans (hpre a) b⟩
    · rw [updOf_setDistance_ne m v w k hwv, distOf_setDistance_ne m v w k hwv]
      exact ⟨a, b⟩

/-- Two descents that agree on every node off the stack give the same loop
over the connected nodes. -/
theorem relax_loop_agree (m0 : NodeMap) (sel : List Key) (hin : RelationsInside m0)
    (d1 d2 : NodeMap → Key → Option Key → Int → Option NodeMap) (f : Nat)
    (hdesc : DescendOK m0 sel d2 f)
    (v : Key) (parent : Option Key) (k : Nat) (S : List Key)
    (hnd : (v :: S).Nodup) (hSk : ∀ u ∈ v :: S, u ∈ StdMap.keys m0)
    (hlen : (StdMap.keys m0).length ≤ f + (v :: S).length)
    (hv : Hops m0 sel k v)
    (hag : ∀ (m : NodeMap) (w : Key) (j : Nat), Hops m0 sel j w → PassInv m0 sel m →
      w ∈ StdMap.keys m0 → w ∉ v :: S → StackOK m (v :: S) (j : Int) →
      (updOf m w = true → (j : Int) ≤ distOf m w) → RelaxedExcept m0 m (v :: S) →
      d1 m w (some v) (j : Int) = d2 m w (some v) (j : Int)) :
    ∀ (L : List Key), (∀ w ∈ L, Linked m0 v w) → ∀ m : NodeMap,
      PassInv m0 sel m → StackOK m (v :: S) ((k : Int) + 1) → RelaxedExcept m0 m (v :: S) →
      L.foldlM (relaxNeighbour d1 v parent (k : Int)) m =
        L.foldlM (relaxNeighbour d2 v parent (k : Int)) m := by
  intro L
  induction L with
  | nil => intro _ m _ _ _; rfl
  | cons w rest ih =>
    intro hL m hp hs hr
    have hw : Linked m0 v w := hL w (List.mem_cons_self _ _)
    have hwk : w ∈ StdMap.keys m0 := Linked_mem_keys hin hw
    have hwk1 : w ∈ StdMap.keys m := by rw [keys_eq_of_core hp.core_eq]; exact hwk
    have hrest : ∀ x ∈ rest, Linked m0 v x := fun x hx => hL x (List.mem_cons_of_mem _ hx)
    rw [List.foldlM_cons, List.foldlM_cons, relaxNeighbour_eq _ _ _ _ _ _ hwk1,
      relaxNeighbour_eq _ _ _ _ _ _ hwk1]
    by_cases hc : some w ≠ parent ∧ (updOf m w = false ∨ (k : Int) < distOf m w)
    · rw [if_pos hc, if_pos hc]
      have hwS : w ∉ v :: S := by
        intro hmem
        obtain ⟨a, b⟩ := hs w hmem
        rcases hc.2 with h | h
        · rw [a] at h; cases h
        · omega
      have hs1 : StackOK m (v :: S) ((k + 1 : Nat) : Int) := by
        intro u hu
        obtain ⟨a, b⟩ := hs u hu
        exact ⟨a, by push_cast; exact b⟩
      have hpre : updOf m w = true → ((k + 1 : Nat) : Int) ≤ distOf m w := by
        intro hu
        rcases hc.2 with h | h
        · rw [hu] at h; cases h
        · push_cast; omega
      have e12 := hag m w (k + 1) (Hops.hop hv hw) hp hwk hwS hs1 hpre hr
      obtain ⟨m1, e1, p1, l1, f1, r1, _, _⟩ :=
        hdesc m w (some v) (k + 1) (v :: S) (Hops.hop hv hw) hp hnd hSk hwk hwS hlen hs1
          (by intro p hp1; cases hp1; exact List.mem_cons_self _ _) hpre hr
      rw [e1] at e12
      push_cast at e1 e12 f1
      have hs2 : StackOK m1 (v :: S) ((k : Int) + 1) := stackOK_later hs l1 f1
      rw [e12, e1]
      exact ih hrest m1 p1 hs2 r1
    · rw [if_neg hc, if_neg hc]
      exact ih hrest m hp hs hr

theorem onStack_eq (env : Env) (hconn : ConnOK env) (m0 : NodeMap) (sel : List Key)
    (hin : RelationsInside m0) :
    ∀ (f : Nat) (m : NodeMap) (v : Key) (parent : Option Key) (k : Nat) (S : List Key),
      Hops m0 sel k v → PassInv m0 sel m → S.Nodup → (∀ u ∈ S, u ∈ StdMap.keys m0) →
      v ∈ StdMap.keys m0 → v ∉ S → (StdMap.keys m0).length ≤ f + S.length →
      StackOK m S (k : Int) → (updOf m v = true → (k : Int) ≤ distOf m v) →
      RelaxedExcept m0 m S →
      recurseOnStack env f S m v parent (k : Int) =
        recurseUpdateDistances env f m v parent (k : Int) := by
  intro f
  induction f with
  | zero => intro m v parent k S _ _ _ _ _ _ _ _ _ _; rfl
  | succ f ih =>
    intro m v parent k S hv hp hnd hSk hvk hvS hlen hs hpre hr
    have hnd1 : (v :: S).Nodup := List.nodup_cons.2 ⟨hvS, hnd⟩
    have hSk1 : ∀ u ∈ v :: S, u ∈ StdMap.keys m0 := by
      intro u hu
      rcases List.mem_cons.1 hu with h | h
      · exact h ▸ hvk
      · exact hSk u h
    have hlen1 : (StdMap.keys m0).length ≤ f + (v :: S).length := by
      simp only [List.length_cons]; omega
    obtain ⟨p1, s1, r1⟩ := entry_facts m0 sel m v k S hv hp hvk hvS hs hpre hr
    have hL : ∀ w ∈ env.getConnectedNodes (setDistance m v k) v, Linked m0 v w := by
      intro w hw
      exact (Linked_of_relsOf (relsOf_eq_of_core p1.core_eq) v w).1 ((hconn _ v w).1 hw)
    show (if v ∈ S then none else
        (env.getConnectedNodes (setDistance m v k) v).foldlM
          (relaxNeighbour (recurseOnStack env f (v :: S)) v parent k) (setDistance m v k)) =
      (env.getConnectedNodes (setDistance m v k) v).foldlM
          (relaxNeighbour (recurseUpdateDistances env f) v parent k) (setDistance m v k)
    rw [if_neg hvS]
    exact relax_loop_agree m0 sel hin _ _ f (recurse_ok env hconn m0 sel hin f) v parent k S
      hnd1 hSk1 hlen1 hv
      (fun m2 w j hj hp2 hwk hwS hs2 hpre2 hr2 =>
        ih m2 w (some v) j (v :: S) hj hp2 hnd1 hSk1 hwk hwS hlen1 hs2 hpre2 hr2)
      _ hL _ p1 s1 r1

theorem roots_agree (env : Env) (hconn : ConnOK env) (m0 : NodeMap) (sel : List Key)
    (hin : RelationsInside m0) (hsel : ∀ s ∈ sel, s ∈ StdMap.keys m0) :
    ∀ (L : List Key), (∀ s ∈ L, s ∈ sel) → ∀ m : NodeMap,
      PassInv m0 sel m → RelaxedExcept m0 m [] →
      L.foldlM (fun acc node => recurseOnStack env m0.length [] acc node none 0) m =
        L.foldlM (fun acc node => recurseUpdateDistances env m0.length acc node none 0) m := by
  intro L
  induction L with
  | nil => intro _ m _ _; rfl
  | cons s rest ih =>
    intro hL m hp hr
    have hs : s ∈ sel := hL s (List.mem_cons_self _ _)
    have hpre : updOf m s = true → ((0 : Nat) : Int) ≤ distOf m s := by
      intro hu
      obtain ⟨k, hk, _⟩ := hp.walk s hu
      rw [hk]; exact Int.ofNat_le.2 (Nat.zero_le k)
    have hlen : (StdMap.keys m0).length ≤ m0.length + ([] : List Key).length := by
      simp [StdMap.keys]
    have hst : StackOK m [] ((0 : Nat) : Int) := by intro u hu; cases hu
    have e12 := onStack_eq env hconn m0 sel hin m0.length m s none 0 [] (Hops.start hs) hp
      List.nodup_nil (by simp) (hsel s hs) (by simp) hlen hst hpre hr
    obtain ⟨m1, e1, p1, _, _, r1, _, _⟩ :=
      recurse_ok env hconn m0 sel hin m0.length m s none 0 [] (Hops.start hs) hp
        List.nodup_nil (by simp) (hsel s hs) (by simp) hlen hst (by intro p hp1; cases hp1)
        hpre hr
    rw [e1] at e12
    have e1b : recurseUpdateDistances env m0.length m s none 0 = some m1 := by simpa using e1
    have e12b : recurseOnStack env m0.length [] m s none 0 = some m1 := by simpa using e12
    rw [List.foldlM_cons, List.foldlM_cons, e1b, e12b]
    exact ih (fun x hx => hL x (List.mem_cons_of_mem _ hx)) m1 p1 r1

/-- C18: on every well-formed graph `updateDistances` returns with the number of
nodes as the bound on the depth of the recursion, and the run that would stop
at a call on a node that is still on the call stack returns the same graph: no
node is entered again while its own call is running. -/
theorem updateDistances_terminates (env : Env) (hconn : ConnOK env) (g : Graph)
    (hwf : g.WellFormed) :
    ∃ g1, g.updateDistances env = some g1 ∧ g.updateDistancesOnStack env = some g1 := by
  obtain ⟨g1, hg1, _⟩ := updateDistances_total env hconn g hwf
  refine ⟨g1, hg1, ?_⟩
  rw [← hg1]
  unfold Graph.updateDistancesOnStack Graph.updateDistances
  by_cases he : g.selectedNodes.isEmpty = true
  · simp only [he, if_true]
  · simp only [he, Bool.false_eq_true, if_false]
    obtain ⟨hc, hu, _⟩ := cleared_facts g.nodes
    have p0 : PassInv g.nodes g.selectedNodes
        (g.nodes.map (fun kv => (kv.1, { kv.2 with distance_to_selected_updated := false }))) :=
      ⟨hc, fun u h => by rw [hu u] at h; cases h⟩
    have r0 : RelaxedExcept g.nodes
        (g.nodes.map (fun kv => (kv.1, { kv.2 with distance_to_selected_updated := false })))
        [] :=
      fun u h => by rw [hu u] at h; cases h
    rw [roots_agree env hconn g.nodes g.selectedNodes hwf.1 hwf.2 g.selectedNodes
      (fun _ h => h) _ p0 r0]

theorem updateDistances_terminates_witness :
    ∃ g1, demoCycle.updateDistances demoEnv = some g1 ∧
      demoCycle.updateDistancesOnStack demoEnv = some g1 :=
  updateDistances_terminates demoEnv connOK_demoEnv demoCycle (by decide)

/-! ## The simulation step -/

theorem foldlM_some_of_all {α β : Type} (f : β → α → Option β) :
    ∀ (L : List α) (b : β), (∀ a ∈ L, ∀ b, ∃ c, f b a = some c) → ∃ c, L.foldlM f b = some c := by
  intro L
  induction L with
  | nil => intro b _; exact ⟨b, rfl⟩
  | cons a rest ih =>
    intro b h
    obtain ⟨c, hc⟩ := h a (List.mem_cons_self _ _) b
    obtain ⟨d, hd⟩ := ih c (fun x hx => h x (List.mem_cons_of_mem _ hx))
    exact ⟨d, by rw [List.foldlM_cons, hc]; exact hd⟩

/-- The Hooke force is defined on a graph whose relations stay inside the node
table. -/
theorem hookeForce_total (phys : Physics) (g : Graph) (self : Key) (n : Node)
    (hin : RelationsInside g.nodes) (hn : StdMap.find g.nodes self = some n) :
    ∃ force, Node.hookeForce phys g n = some force := by
  unfold Node.hookeForce
  apply foldlM_some_of_all
  intro rel hrel force
  have hk : rel.to_ ∈ StdMap.keys g.nodes :=
    hin (self, n) (StdMap.mem_of_find _ _ _ hn) rel hrel
  obtain ⟨t, ht⟩ := StdMap.find_isSome_of_mem _ _ hk
  have hex : ∃ h, Node.hookeAttractionWith phys g n rel = some h := by
    unfold Node.hookeAttractionWith
    by_cases hs : rel.to_ = rel.from_
    · exact ⟨_, by rw [if_pos hs]⟩
    · exact ⟨_, by rw [if_neg hs, ht]⟩
  obtain ⟨h, hh⟩ := hex
  exact ⟨force.add h, by rw [hh]; rfl⟩

/-- A node whose relations all go to the node itself feels no Hooke force. -/
theorem hookeForce_self_only (phys : Physics) (g : Graph) (n : Node)
    (h : ∀ rel ∈ n.relations, rel.to_ = rel.from_) :
    Node.hookeForce phys g n = some ⟨0, 0⟩ := by
  unfold Node.hookeForce
  generalize n.relations = L at h
  induction L with
  | nil => rfl
  | cons rel rest ih =>
    rw [List.foldlM_cons]
    have h1 : Node.hookeAttractionWith phys g n rel = some ⟨0, 0⟩ := by
      simp [Node.hookeAttractionWith, h rel (List.mem_cons_self _ _)]
    rw [h1]
    simp only [Option.map_some', vec2.add, add_zero]
    exact ih (fun r hr => h r (List.mem_cons_of_mem _ hr))

theorem step_done (phys : Physics) (g : Graph) (self : Key) (dt : ℚ) (n : Node)
    (hn : StdMap.find g.nodes self = some n) (hd : n.stepDone = true) :
    Node.step phys g self dt = some g := by
  simp [Node.step, hn, hd]

/-- The node after a step that is not skipped: the member values of
`Node::step`, given the Hooke force. -/
theorem step_fresh (phys : Physics) (g : Graph) (self : Key) (dt : ℚ) (n : Node)
    (force : vec2f) (hn : StdMap.find g.nodes self = some n) (hd : n.stepDone = false)
    (hf : Node.hookeForce phys g n = some force) :
    ∃ g1 n1, Node.step phys g self dt = some g1 ∧ StdMap.find g1.nodes self = some n1 ∧
      n1.stepDone = true ∧
      n1.speed = (n.speed.add (force.scale dt)).scale n.damping ∧
      n1.kinetic_energy = n.mass * n1.speed.length2 ∧
      n1.pos = if n1.kinetic_energy > phys.MIN_KINETIC_ENERGY
        then n.pos.add (n1.speed.scale dt) else n.pos := by
  refine ⟨{ g with nodes := StdMap.modify g.nodes self (fun _ => n.integrate phys force dt) },
    n.integrate phys force dt, ?_, ?_, ?_, ?_, ?_, ?_⟩
  · simp only [Node.step, hn, hd, hf]; rfl
  · rw [StdMap.find_modify]
    simp only [if_true, hn, Option.map_some']
  · rfl
  · unfold Node.integrate Node.updateKineticEnergy
    simp only
    split <;> rfl
  · unfold Node.integrate Node.updateKineticEnergy
    simp only
    split <;> rfl
  · unfold Node.integrate Node.updateKineticEnergy
    simp only
    split <;> rfl

/-- C13: a node whose Hooke force is zero, whose kinetic energy
`mass * |speed|^2` is below `MIN_KINETIC_ENERGY` before the call, with
`mass >= 0` and `0 < damping < 1`, has the same position after `step(dt)`, for
every `dt`. -/
theorem step_at_rest (phys : Physics) (g : Graph) (self : Key) (n : Node) (dt : ℚ)
    (hn : StdMap.find g.nodes self = some n)
    (hforce : Node.hookeForce phys g n = some ⟨0, 0⟩)
    (hke : n.mass * n.speed.length2 < phys.MIN_KINETIC_ENERGY)
    (hmass : 0 ≤ n.mass) (hd0 : 0 < n.damping) (hd1 : n.damping < 1) :
    ∃ g1 n1, Node.step phys g self dt = some g1 ∧ StdMap.find g1.nodes self = some n1 ∧
      n1.pos = n.pos := by
  by_cases hd : n.stepDone = true
  · exact ⟨g, n, step_done phys g self dt n hn hd, hn, rfl⟩
  · have hd' : n.stepDone = false := by simpa using hd
    obtain ⟨g1, n1, h1, h2, _, hs, hk, hp⟩ := step_fresh phys g self dt n ⟨0, 0⟩ hn hd' hforce
    refine ⟨g1, n1, h1, h2, ?_⟩
    rw [hp]
    have hle : ¬ n1.kinetic_energy > phys.MIN_KINETIC_ENERGY := by
      rw [hk, hs]
      simp only [vec2.length2, vec2.add, vec2.scale, zero_mul, add_zero] at hke ⊢
      have hsq : 0 ≤ n.speed.x * n.speed.x + n.speed.y * n.speed.y :=
        add_nonneg (mul_self_nonneg _) (mul_self_nonneg _)
      have hE : 0 ≤ n.mass * (n.speed.x * n.speed.x + n.speed.y * n.speed.y) :=
        mul_nonneg hmass hsq
      have hdd : n.damping * n.damping ≤ 1 := by nlinarith
      have hEd : n.mass * (n.speed.x * n.damping * (n.speed.x * n.damping) +
          n.speed.y * n.damping * (n.speed.y * n.damping)) =
          n.damping * n.damping *
            (n.mass * (n.speed.x * n.speed.x + n.speed.y * n.speed.y)) := by ring
      rw [hEd]
      have : n.damping * n.damping *
          (n.mass * (n.speed.x * n.speed.x + n.speed.y * n.speed.y)) ≤
          n.mass * (n.speed.x * n.speed.x + n.speed.y * n.speed.y) := by
        nlinarith [mul_nonneg (sub_nonneg.2 hdd) hE]
      exact not_lt.2 (le_trans this (le_of_lt hke))
    rw [if_neg hle]

theorem step_at_rest_witness :
    ∃ g1 n1, Node.step demoPhys demoSelf 65 (7 / 2) = some g1 ∧
      StdMap.find g1.nodes 65 = some n1 ∧
      (StdMap.find demoSelf.nodes 65).map Node.pos = some n1.pos := by
  obtain ⟨n, hn⟩ := StdMap.find_isSome_of_mem demoSelf.nodes 65 (by decide)
  have hrel : (StdMap.find demoSelf.nodes 65).map
      (fun n => n.relations.all (fun rel => rel.to_ = rel.from_)) = some true := by decide
  have hsp : (StdMap.find demoSelf.nodes 65).map
      (fun n => (n.mass, n.damping, n.speed)) = some (1, 1 / 2, ⟨0, 0⟩) := by rfl
  rw [hn] at hrel hsp
  simp only [Option.map_some', Option.some.injEq, List.all_eq_true, decide_eq_true_eq,
    Prod.mk.injEq] at hrel hsp
  obtain ⟨hm, hdmp, hspd⟩ := hsp
  obtain ⟨g1, n1, h1, h2, h3⟩ := step_at_rest demoPhys demoSelf 65 n (7 / 2) hn
    (hookeForce_self_only demoPhys demoSelf n hrel)
    (by rw [hm, hspd]; norm_num [vec2.length2, demoPhys])
    (by rw [hm]; norm_num) (by rw [hdmp]; norm_num) (by rw [hdmp]; norm_num)
  exact ⟨g1, n1, h1, h2, by rw [hn, h3]; rfl⟩

/-- C14: on a graph whose relations stay inside the node table, `step(dt1)` on
a node returns and sets `stepDone`, and a following `step(dt2)` on it returns
the very same graph, so neither `speed`, `pos`, `kinetic_energy` nor
`stepDone` changes; a step on a node whose `stepDone` is already set returns
the graph it was given. -/
theorem step_guarded (phys : Physics) (g : Graph) (self : Key) (n : Node) (dt1 dt2 : ℚ)
    (hin : RelationsInside g.nodes) (hn : StdMap.find g.nodes self = some n) :
    ∃ g1 n1, Node.step phys g self dt1 = some g1 ∧ Node.step phys g1 self dt2 = some g1 ∧
      StdMap.find g1.nodes self = some n1 ∧ n1.stepDone = true ∧
      (n.stepDone = true → g1 = g) := by
  by_cases hd : n.stepDone = true
  · exact ⟨g, n, step_done phys g self dt1 n hn hd, step_done phys g self dt2 n hn hd, hn, hd,
      fun _ => rfl⟩
  · have hd' : n.stepDone = false := by simpa using hd
    obtain ⟨force, hf⟩ := hookeForce_total phys g self n hin hn
    obtain ⟨g1, n1, h1, h2, h3, _⟩ := step_fresh phys g self dt1 n force hn hd' hf
    exact ⟨g1, n1, h1, step_done phys g1 self dt2 n1 h2 h3, h2, h3, fun h => absurd h hd⟩

theorem step_guarded_witness :
    ∃ g1 n1, Node.step demoPhys demoCycle 66 (1 / 10) = some g1 ∧
      Node.step demoPhys g1 66 5 = some g1 ∧
      StdMap.find g1.nodes 66 = some n1 ∧ n1.stepDone = true := by
  obtain ⟨n, hn⟩ := StdMap.find_isSome_of_mem demoCycle.nodes 66 (by decide)
  obtain ⟨g1, n1, h1, h2, h3, h4, _⟩ :=
    step_guarded demoPhys demoCycle 66 n (1 / 10) 5 (by decide) hn
  exact ⟨g1, n1, h1, h2, h3, h4⟩

/-! ## Projection of a force -/

theorem sqrt_slope_pos (t : ℝ) : 0 < Real.sqrt (1 + t * t) :=
  Real.sqrt_pos.2 (by nlinarith [mul_self_nonneg t])

theorem sqrt_slope_sq (t : ℝ) : Real.sqrt (1 + t * t) * Real.sqrt (1 + t * t) = 1 + t * t :=
  Real.mul_self_sqrt (by nlinarith [mul_self_nonneg t])

/-- The general branch of `project`, common to `Graph::project` and
`Node::project`: the scalar product of the result with the displacement is
minus the force over the root, times a positive number. -/
theorem general_branch_dot (f : ℝ) (d : vec2 ℝ) (hx : d.x ≠ 0) (hy : d.y ≠ 0) :
    (vec2.dot
        ⟨if d.x > 0 then -(f * (1 / Real.sqrt (1 + d.y / d.x * (d.y / d.x))))
          else f * (1 / Real.sqrt (1 + d.y / d.x * (d.y / d.x))),
         if d.y > 0 then -(f * (1 / Real.sqrt (1 + d.y / d.x * (d.y / d.x))) * |d.y / d.x|)
          else f * (1 / Real.sqrt (1 + d.y / d.x * (d.y / d.x))) * |d.y / d.x|⟩ d) =
      -(f * (1 / Real.sqrt (1 + d.y / d.x * (d.y / d.x)))) * (|d.x| + |d.y / d.x| * |d.y|) ∧
    0 < 1 / Real.sqrt (1 + d.y / d.x * (d.y / d.x)) ∧
    0 < |d.x| + |d.y / d.x| * |d.y| := by
  refine ⟨?_, ?_, ?_⟩
  · unfold vec2.dot
    simp only
    rcases lt_or_gt_of_ne hx with hx1 | hx1 <;> rcases lt_or_gt_of_ne hy with hy1 | hy1
    · rw [if_neg (not_lt.2 (le_of_lt hx1)), if_neg (not_lt.2 (le_of_lt hy1)),
        abs_of_neg hx1, abs_of_neg hy1]
      ring
    · rw [if_neg (not_lt.2 (le_of_lt hx1)), if_pos hy1, abs_of_neg hx1, abs_of_pos hy1]
      ring
    · rw [if_pos hx1, if_neg (not_lt.2 (le_of_lt hy1)), abs_of_pos hx1, abs_of_neg hy1]
      ring
    · rw [if_pos hx1, if_pos hy1, abs_of_pos hx1, abs_of_pos hy1]
      ring
  · exact one_div_pos.2 (sqrt_slope_pos _)
  · have h1 : 0 < |d.x| := abs_pos.2 hx
    have h2 : 0 ≤ |d.y / d.x| * |d.y| := mul_nonneg (abs_nonneg _) (abs_nonneg _)
    linarith

theorem graph_project_general (f : ℝ) (d : vec2 ℝ) (hx : d.x ≠ 0) (hy : d.y ≠ 0) :
    Graph.project Real.sqrt f d =
      ⟨if d.x > 0 then -(f * (1 / Real.sqrt (1 + d.y / d.x * (d.y / d.x))))
          else f * (1 / Real.sqrt (1 + d.y / d.x * (d.y / d.x))),
         if d.y > 0 then -(f * (1 / Real.sqrt (1 + d.y / d.x * (d.y / d.x))) * |d.y / d.x|)
          else f * (1 / Real.sqrt (1 + d.y / d.x * (d.y / d.x))) * |d.y / d.x|⟩ := by
  unfold Graph.project
  rw [if_neg hy, if_neg hx]

theorem node_project_general (ofScalar : ℝ → vec2 ℝ) (f : ℝ) (d : vec2 ℝ)
    (hx : d.x ≠ 0) (hy : d.y ≠ 0) :
    Node.project Real.sqrt ofScalar f d = Graph.project Real.sqrt f d := by
  unfold Node.project Graph.project
  rw [if_neg hy, if_neg hx, if_neg hy, if_neg hx]

theorem project_dot_sign (f : ℝ) (d : vec2 ℝ) (hx : d.x ≠ 0) (hy : d.y ≠ 0) :
    (0 < f → (Graph.project Real.sqrt f d).dot d < 0) ∧
      (f < 0 → 0 < (Graph.project Real.sqrt f d).dot d) := by
  obtain ⟨hdot, hq, hpos⟩ := general_branch_dot f d hx hy
  rw [graph_project_general f d hx hy, hdot]
  constructor
  · intro hf
    have : 0 < f * (1 / Real.sqrt (1 + d.y / d.x * (d.y / d.x))) := mul_pos hf hq
    nlinarith [mul_pos this hpos]
  · intro hf
    have : 0 < -f * (1 / Real.sqrt (1 + d.y / d.x * (d.y / d.x))) :=
      mul_pos (neg_pos.2 hf) hq
    nlinarith [mul_pos this hpos]

/-- C15, as amended: for every displacement `d` off the two axes (`d.x` and
`d.y` both non-zero) and every scalar force `f`, the result of
`Graph::project` and of `Node::project` pushes the source away from the other
point when `f > 0` (negative scalar product with `d`) and pulls it toward the
other point when `f < 0` (positive scalar product with `d`). -/
theorem project_sign (ofScalar : ℝ → vec2 ℝ) (f : ℝ) (d : vec2 ℝ)
    (hx : d.x ≠ 0) (hy : d.y ≠ 0) :
    (0 < f → (Graph.project Real.sqrt f d).dot d < 0 ∧
        (Node.project Real.sqrt ofScalar f d).dot d < 0) ∧
      (f < 0 → 0 < (Graph.project Real.sqrt f d).dot d ∧
        0 < (Node.project Real.sqrt ofScalar f d).dot d) := by
  rw [node_project_general ofScalar f d hx hy]
  obtain ⟨h1, h2⟩ := project_dot_sign f d hx hy
  exact ⟨fun hf => ⟨h1 hf, h1 hf⟩, fun hf => ⟨h2 hf, h2 hf⟩⟩

theorem project_sign_witness :
    (Graph.project Real.sqrt 2 (⟨-1, 1⟩ : vec2 ℝ)).dot ⟨-1, 1⟩ < 0 ∧
      0 < (Graph.project Real.sqrt (-2) (⟨-1, 1⟩ : vec2 ℝ)).dot ⟨-1, 1⟩ :=
  ⟨((project_sign (fun t => ⟨t, t⟩) 2 ⟨-1, 1⟩ (by norm_num) (by norm_num)).1
      (by norm_num)).1,
    ((project_sign (fun t => ⟨t, t⟩) (-2) ⟨-1, 1⟩ (by norm_num) (by norm_num)).2
      (by norm_num)).1⟩

/-- C15, as stated, fails: with the positive force 1 and the displacement
`(3, 4)` to the other point, `Graph::project` returns `(-3/5, -4/5)`, whose
scalar product with the displacement is -5: the source is pushed away.  On the
axis `d.y = 0` the same force gives `(1, 0)` for both `d = (1, 0)` and
`d = (-1, 0)`. -/
theorem project_positive_repels :
    Graph.project Real.sqrt 1 (⟨3, 4⟩ : vec2 ℝ) = ⟨-(3 / 5), -(4 / 5)⟩ ∧
      (Graph.project Real.sqrt 1 (⟨3, 4⟩ : vec2 ℝ)).dot ⟨3, 4⟩ = -5 ∧
      (Graph.project Real.sqrt 1 (⟨1, 0⟩ : vec2 ℝ)).dot ⟨1, 0⟩ = 1 ∧
      (Graph.project Real.sqrt 1 (⟨-1, 0⟩ : vec2 ℝ)).dot ⟨-1, 0⟩ = -1 := by
  have hs : Real.sqrt (1 + (4 : ℝ) / 3 * (4 / 3)) = 5 / 3 := by
    rw [show (1 : ℝ) + 4 / 3 * (4 / 3) = (5 / 3) ^ 2 by norm_num]
    exact Real.sqrt_sq (by norm_num)
  have h1 : Graph.project Real.sqrt 1 (⟨3, 4⟩ : vec2 ℝ) = ⟨-(3 / 5), -(4 / 5)⟩ := by
    rw [graph_project_general 1 ⟨3, 4⟩ (by norm_num) (by norm_num)]
    simp only [hs]
    norm_num [abs_of_pos]
  refine ⟨h1, ?_, ?_, ?_⟩
  · rw [h1]; norm_num [vec2.dot]
  · norm_num [Graph.project, vec2.dot]
  · norm_num [Graph.project, vec2.dot]

/-- C20: over the reals, with the real square root, the result `r` of
`Graph::project` has the magnitude of the force, `r.x^2 + r.y^2 = f^2`, for
every force `f` and every displacement `d`, the zero displacement and the
displacements on an axis included. -/
theorem project_magnitude (f : ℝ) (d : vec2 ℝ) :
    (Graph.project Real.sqrt f d).x ^ 2 + (Graph.project Real.sqrt f d).y ^ 2 = f ^ 2 := by
  by_cases hy : d.y = 0
  · simp [Graph.project, hy]
  · by_cases hx : d.x = 0
    · simp [Graph.project, hy, hx]
    · rw [graph_project_general f d hx hy]
      have key : ∀ (s t a : ℝ), 0 < s → s * s = 1 + t * t → a ^ 2 = t * t →
          (f * (1 / s)) ^ 2 + (f * (1 / s) * a) ^ 2 = f ^ 2 := by
        intro s t a hs0 hss ha
        have hne : s ≠ 0 := ne_of_gt hs0
        rw [mul_pow (f * (1 / s)) a, ha]
        have : (f * (1 / s)) ^ 2 + (f * (1 / s)) ^ 2 * (t * t) =
            (f * (1 / s)) ^ 2 * (s * s) := by rw [hss]; ring
        rw [this, show (f * (1 / s)) ^ 2 * (s * s) = f ^ 2 * (1 / s * s) ^ 2 by ring,
          one_div_mul_cancel hne]
        ring
      have hk := key (Real.sqrt (1 + d.y / d.x * (d.y / d.x))) (d.y / d.x) |d.y / d.x|
        (sqrt_slope_pos _) (sqrt_slope_sq _) (by rw [sq_abs]; ring)
      dsimp only
      split_ifs <;> first | exact hk | (simp only [neg_sq]; exact hk)

end OroView
